import Mathlib

/-!
Shallow embedding of the multi-call aggregation and reduction engine of the
EVM RPC canister (`src/rpc_client/mod.rs`), together with theorems settling
the frozen claims about it.

Rust `BTreeMap<K, V>` values are modelled as association lists whose keys are
strictly increasing; `Result<T, RpcError>` is modelled as `Except RpcError T`.
A Rust `panic!` / `.expect(...)` is modelled by returning `none` from an
`Option`-valued function, so panic-freedom is provable as the result being
`some`.
-/

namespace EvmRpc

deriving instance DecidableEq for Except

/-- Modelled from the spec: the error taxonomy of §3 (the `RpcError` type of
the `evm_rpc_types` crate is not part of the extracted sources). `Transport`
carries a discriminant kind plus a free-form detail string, `JsonRpcError`
carries a JSON-RPC code and message, `Provider` carries a configuration error
kind. -/
inductive RpcError : Type where
  | JsonRpcError (code : Int) (message : String)
  | Transport (kind : Nat) (detail : String)
  | Provider (kind : Nat)
deriving DecidableEq

/-- Modelled from the spec: the consistency predicate of §4.4 on two errors
(the function `are_errors_consistent` lives in `rpc_client/eth_rpc.rs`, which
is not part of the extracted sources). Two JSON-RPC errors are consistent iff
they have the same code and the same message; two transport errors are
consistent iff they share the same discriminant kind, the detail strings being
ignored; errors of different kinds are never consistent; provider errors do
not participate. -/
def errors_consistent : RpcError → RpcError → Bool
  | RpcError.JsonRpcError c1 m1, RpcError.JsonRpcError c2 m2 => c1 == c2 && m1 == m2
  | RpcError.Transport k1 _, RpcError.Transport k2 _ => k1 == k2
  | _, _ => false

/-- Modelled from the spec: `are_errors_consistent` as called by `all_ok` on
two stored `Result` values. Inside `all_ok` it is only ever applied to two
errors; on any pair involving an ok value we return `true`, which is never
observable there. -/
def are_errors_consistent {T : Type} : Except RpcError T → Except RpcError T → Bool
  | Except.error a, Except.error b => errors_consistent a b
  | _, _ => true

section BTree

variable {K V : Type} [LinearOrder K]

/-- Insertion into a `BTreeMap` modelled as a key-sorted association list:
strictly smaller keys stay in front, an equal key is overwritten. -/
def btreeInsert (k : K) (v : V) : List (K × V) → List (K × V)
  | [] => [(k, v)]
  | (k', v') :: rest =>
    if k < k' then (k, v) :: (k', v') :: rest
    else if k = k' then (k, v) :: rest
    else (k', v') :: btreeInsert k v rest

/-- `BTreeMap::from_iter`: fold the pairs into an empty map, later bindings
overwriting earlier ones with the same key. -/
def btreeFromIter (l : List (K × V)) : List (K × V) :=
  l.foldl (fun m kv => btreeInsert kv.1 kv.2 m) []

/-- `BTreeMap::remove`: the removed value (if any) together with the
remaining map. -/
def btreeRemove (k : K) : List (K × V) → Option V × List (K × V)
  | [] => (none, [])
  | (k', v') :: rest =>
    if k = k' then (some v', rest)
    else
      let r := btreeRemove k rest
      (r.1, (k', v') :: r.2)

/-- Keys are strictly increasing: the representation invariant of a
`BTreeMap` modelled as an association list. -/
def SortedKeys (l : List (K × V)) : Prop :=
  l.Pairwise (fun a b => a.1 < b.1)

instance (l : List (K × V)) : Decidable (SortedKeys l) := by
  unfold SortedKeys; infer_instance

end BTree

/-- `MultiCallResults<T>`: aggregates responses of different providers to the
same query, a `BTreeMap<RpcService, Result<T, RpcError>>`. The provider type
is kept abstract (`P`), as the reducers only use its total order. -/
structure MultiCallResults (P T : Type) where
  results : List (P × Except RpcError T)
deriving DecidableEq

/-- `MultiCallError<T>`. -/
inductive MultiCallError (P T : Type) where
  | ConsistentError (e : RpcError)
  | InconsistentResults (r : MultiCallResults P T)
deriving DecidableEq

variable {P T : Type} [LinearOrder P]

/-- `MultiCallResults::from_non_empty_iter`: build the map from the pairs;
the `panic!` on an empty result is modelled by `none`. -/
def from_non_empty_iter (l : List (P × Except RpcError T)) :
    Option (MultiCallResults P T) :=
  let results := btreeFromIter l
  if results.isEmpty then none else some ⟨results⟩

/-- The `result.expect("BUG: all results should be ok")` mapping applied to
every entry in the no-error branch of `all_ok`; `none` models the panic. -/
def expectAllOk : List (P × Except RpcError T) → Option (List (P × T))
  | [] => some []
  | (p, Except.ok v) :: rest => (expectAllOk rest).map (fun m => (p, v) :: m)
  | (_, Except.error _) :: _ => none

/-- The `for` loop of `all_ok`: walk the results tracking `has_ok` and the
first error; `Except.error ()` models the early
`return Err(MultiCallError::InconsistentResults(self))`. -/
def all_ok_loop :
    List (P × Except RpcError T) → Bool → Option (P × Except RpcError T) →
    Except Unit (Bool × Option (P × Except RpcError T))
  | [], has_ok, first_error => Except.ok (has_ok, first_error)
  | (provider, result) :: rest, has_ok, first_error =>
    match result with
    | Except.ok _ => all_ok_loop rest true first_error
    | Except.error e =>
      match first_error with
      | none => all_ok_loop rest has_ok (some (provider, Except.error e))
      | some (first_error_provider, error) =>
        if are_errors_consistent error (Except.error e) then
          all_ok_loop rest has_ok (some (first_error_provider, error))
        else
          Except.error ()

/-- `MultiCallResults::all_ok`. The outer `Option` models the two panics
(`expect` in the no-error branch and the unreachable `first_error` holding an
ok value). -/
def all_ok (self : MultiCallResults P T) :
    Option (Except (MultiCallError P T) (List (P × T))) :=
  match all_ok_loop self.results false none with
  | Except.error () => some (Except.error (MultiCallError.InconsistentResults self))
  | Except.ok (has_ok, first_error) =>
    match first_error with
    | none => (expectAllOk self.results).map Except.ok
    | some (_, Except.error error) =>
      if has_ok then
        some (Except.error (MultiCallError.InconsistentResults self))
      else
        some (Except.error (MultiCallError.ConsistentError error))
    | some (_, Except.ok _) => none

variable [DecidableEq T]

/-- `MultiCallResults::reduce_with_equality`. The outer `Option` models the
panics (the `expect` on the first element and the one inside
`from_non_empty_iter`). -/
def reduce_with_equality (self : MultiCallResults P T) :
    Option (Except (MultiCallError P T) T) :=
  (all_ok self).bind fun r =>
    match r with
    | Except.error e => some (Except.error e)
    | Except.ok results =>
      match results with
      | [] => none
      | (base_node_provider, base_result) :: rest =>
        let inconsistent_results := rest.filter (fun pr => pr.2 ≠ base_result)
        if inconsistent_results.isEmpty then some (Except.ok base_result)
        else
          match from_non_empty_iter
              ((inconsistent_results ++ [(base_node_provider, base_result)]).map
                (fun pr => (pr.1, Except.ok pr.2))) with
          | none => none
          | some payload =>
            some (Except.error (MultiCallError.InconsistentResults payload))

section Majority

variable {K : Type} [LinearOrder K]

/-- The grouping `for` loop of `reduce_with_strict_majority_by_key`,
accumulating `votes_by_key : BTreeMap<K, BTreeMap<RpcService, T>>`. The outer
`Option` models the two panics (`expect` on `last_key_value` and the one
inside `from_non_empty_iter`); `Except.error payload` models the early
`return Err(MultiCallError::InconsistentResults(...))` on an ambiguous key. -/
def group_by_key_loop (extractor : T → K) :
    List (P × T) → List (K × List (P × T)) →
    Option (Except (MultiCallResults P T) (List (K × List (P × T))))
  | [], votes_by_key => some (Except.ok votes_by_key)
  | (provider, result) :: rest, votes_by_key =>
    let key := extractor result
    match btreeRemove key votes_by_key with
    | (some votes_for_same_key, votes_rest) =>
      match votes_for_same_key.getLast? with
      | none => none
      | some (_other_provider, other_result) =>
        if result ≠ other_result then
          match from_non_empty_iter
              ((votes_for_same_key ++ [(provider, result)]).map
                (fun pr => (pr.1, Except.ok pr.2))) with
          | none => none
          | some payload => some (Except.error payload)
        else
          group_by_key_loop extractor rest
            (btreeInsert key (btreeInsert provider result votes_for_same_key) votes_rest)
    | (none, votes_rest) =>
      group_by_key_loop extractor rest
        (btreeInsert key [(provider, result)] votes_rest)

/-- Rust's `tally.sort_unstable_by(... len().cmp(...))`: sort the tally
ascending by ballot size. `sort_unstable_by` promises some permutation sorted
by the comparator, the order of equal elements being unspecified; insertion
sort realises that contract. -/
def sortTally (tally : List (K × List (P × T))) : List (K × List (P × T)) :=
  tally.insertionSort (fun a b => a.2.length ≤ b.2.length)

/-- `MultiCallResults::reduce_with_strict_majority_by_key`. The outer
`Option` models the panics (`expect`s on the tally and on `pop_last`, the
`panic!` on an empty tally, and the one inside `from_non_empty_iter`). -/
def reduce_with_strict_majority_by_key (extractor : T → K)
    (self : MultiCallResults P T) : Option (Except (MultiCallError P T) T) :=
  (all_ok self).bind fun r =>
    match r with
    | Except.error e => some (Except.error e)
    | Except.ok results =>
      (group_by_key_loop extractor results []).bind fun g =>
        match g with
        | Except.error payload =>
          some (Except.error (MultiCallError.InconsistentResults payload))
        | Except.ok votes_by_key =>
          let tally := sortTally votes_by_key
          match tally with
          | [] => none
          | [single] =>
            match single.2.getLast? with
            | none => none
            | some last => some (Except.ok last.2)
          | _ :: _ :: _ =>
            match tally.getLast? with
            | none => none
            | some first =>
              match tally.dropLast.getLast? with
              | none => none
              | some second =>
                if first.2.length > second.2.length then
                  match first.2.getLast? with
                  | none => none
                  | some last => some (Except.ok last.2)
                else
                  match from_non_empty_iter
                      ((first.2 ++ second.2).map
                        (fun pr => (pr.1, Except.ok pr.2))) with
                  | none => none
                  | some payload =>
                    some (Except.error (MultiCallError.InconsistentResults payload))

end Majority

section Sequential

/-- The loop of `sequential_call_until_ok`, over the pre-recorded outcome of
calling each provider in configured order. An ok outcome short-circuits; an
error (a JSON-RPC error is logged and re-wrapped identically via `into()`,
any other error is kept as is) overwrites `last_result`. The `Option` models
the `panic!` when there are no providers at all. -/
def sequential_call_loop {O : Type} :
    List (P × Except RpcError O) → Option (Except RpcError O) →
    Option (Except RpcError O)
  | [], last_result => last_result
  | (_provider, result) :: rest, _last_result =>
    match result with
    | Except.ok value => some (Except.ok value)
    | Except.error (RpcError.JsonRpcError code message) =>
      sequential_call_loop rest
        (some (Except.error (RpcError.JsonRpcError code message)))
    | Except.error e => sequential_call_loop rest (some (Except.error e))

/-- `EthRpcClient::sequential_call_until_ok`, with the network replaced by
the list of per-provider outcomes in configured provider order. -/
def sequential_call_until_ok {O : Type}
    (calls : List (P × Except RpcError O)) : Option (Except RpcError O) :=
  sequential_call_loop calls none

end Sequential

section Client

/-- `EthereumNetwork`: a chain id. -/
structure EthereumNetwork : Type where
  chain_id : Nat
deriving DecidableEq

def EthereumNetwork.MAINNET : EthereumNetwork := ⟨1⟩
def EthereumNetwork.SEPOLIA : EthereumNetwork := ⟨11155111⟩
def EthereumNetwork.ARBITRUM : EthereumNetwork := ⟨42161⟩
def EthereumNetwork.BASE : EthereumNetwork := ⟨8453⟩
def EthereumNetwork.OPTIMISM : EthereumNetwork := ⟨10⟩

/-- Modelled from the spec: the Ethereum mainnet provider identifiers of the
`evm_rpc_types` crate, which is not part of the extracted sources; the
constructors are the ones named in `src/rpc_client/mod.rs`. -/
inductive EthMainnetService : Type where
  | Ankr
  | Cloudflare
  | PublicNode
deriving DecidableEq

/-- Modelled from the spec: the Sepolia provider identifiers of the
`evm_rpc_types` crate; the constructors are the ones named in
`src/rpc_client/mod.rs`. -/
inductive EthSepoliaService : Type where
  | Ankr
  | BlockPi
  | PublicNode
deriving DecidableEq

/-- Modelled from the spec: the L2 mainnet provider identifiers of the
`evm_rpc_types` crate; the constructors are the ones named in
`src/rpc_client/mod.rs`. -/
inductive L2MainnetService : Type where
  | Ankr
  | BlockPi
  | PublicNode
deriving DecidableEq

/-- Modelled from the spec: the `RpcService` sum of the `evm_rpc_types`
crate, tagging a provider identifier with its chain family; custom services
are kept opaque. -/
inductive RpcService : Type where
  | Custom (service : Nat)
  | EthMainnet (s : EthMainnetService)
  | EthSepolia (s : EthSepoliaService)
  | ArbitrumOne (s : L2MainnetService)
  | BaseMainnet (s : L2MainnetService)
  | OptimismMainnet (s : L2MainnetService)
deriving DecidableEq

/-- Modelled from the spec: the `RpcServices` request sum of the
`evm_rpc_types` crate: either an explicit custom chain or a chain family with
an optional explicit provider list. -/
inductive RpcServices : Type where
  | Custom (chain_id : Nat) (services : List Nat)
  | EthMainnet (services : Option (List EthMainnetService))
  | EthSepolia (services : Option (List EthSepoliaService))
  | ArbitrumOne (services : Option (List L2MainnetService))
  | BaseMainnet (services : Option (List L2MainnetService))
  | OptimismMainnet (services : Option (List L2MainnetService))
deriving DecidableEq

/-- Modelled from the spec: the `ProviderError` configuration error of the
`evm_rpc_types` crate; only the variant named in `src/rpc_client/mod.rs` is
modelled. -/
inductive ProviderError : Type where
  | ProviderNotFound
deriving DecidableEq

/-- Modelled from the spec: the client `RpcConfig` of the `evm_rpc_types`
crate, carrying the optional response-size-estimate override; its default
has no override. -/
structure RpcConfig : Type where
  response_size_estimate : Option Nat := none
deriving DecidableEq

instance : Inhabited RpcConfig := ⟨{}⟩

def DEFAULT_ETH_MAINNET_SERVICES : List EthMainnetService :=
  [EthMainnetService.Ankr, EthMainnetService.Cloudflare, EthMainnetService.PublicNode]

def DEFAULT_ETH_SEPOLIA_SERVICES : List EthSepoliaService :=
  [EthSepoliaService.Ankr, EthSepoliaService.BlockPi, EthSepoliaService.PublicNode]

def DEFAULT_L2_MAINNET_SERVICES : List L2MainnetService :=
  [L2MainnetService.Ankr, L2MainnetService.BlockPi, L2MainnetService.PublicNode]

/-- The `let (chain, providers) = match source { ... }` of
`EthRpcClient::new`: the chain and the provider list derived from the
requested services, substituting the three-provider defaults when no explicit
list is supplied. -/
def chainAndProviders : RpcServices → EthereumNetwork × List RpcService
  | RpcServices.Custom chain_id services =>
    (⟨chain_id⟩, services.map RpcService.Custom)
  | RpcServices.EthMainnet services =>
    (EthereumNetwork.MAINNET,
      (services.getD DEFAULT_ETH_MAINNET_SERVICES).map RpcService.EthMainnet)
  | RpcServices.EthSepolia services =>
    (EthereumNetwork.SEPOLIA,
      (services.getD DEFAULT_ETH_SEPOLIA_SERVICES).map RpcService.EthSepolia)
  | RpcServices.ArbitrumOne services =>
    (EthereumNetwork.ARBITRUM,
      (services.getD DEFAULT_L2_MAINNET_SERVICES).map RpcService.ArbitrumOne)
  | RpcServices.BaseMainnet services =>
    (EthereumNetwork.BASE,
      (services.getD DEFAULT_L2_MAINNET_SERVICES).map RpcService.BaseMainnet)
  | RpcServices.OptimismMainnet services =>
    (EthereumNetwork.OPTIMISM,
      (services.getD DEFAULT_L2_MAINNET_SERVICES).map RpcService.OptimismMainnet)

/-- `EthRpcClient`: chain, non-empty provider list, config. -/
structure EthRpcClient : Type where
  chain : EthereumNetwork
  providers : List RpcService
  config : RpcConfig
deriving DecidableEq

/-- `EthRpcClient::new`. -/
def EthRpcClient.new (source : RpcServices) (config : Option RpcConfig) :
    Except ProviderError EthRpcClient :=
  let cp := chainAndProviders source
  if cp.2.isEmpty then Except.error ProviderError.ProviderNotFound
  else Except.ok ⟨cp.1, cp.2, config.getD {}⟩

/-- Modelled from the spec: `ResponseSizeEstimate::new` of
`rpc_client/eth_rpc.rs`, which is not part of the extracted sources; an
advisory byte bound. -/
structure ResponseSizeEstimate : Type where
  new ::
  value : Nat
deriving DecidableEq

/-- `EthRpcClient::response_size_estimate`: a config override replaces the
per-method estimate. -/
def response_size_estimate (config : RpcConfig) (estimate : Nat) :
    ResponseSizeEstimate :=
  ResponseSizeEstimate.new (config.response_size_estimate.getD estimate)

/-- The `expected_block_size` match of `eth_get_block_by_number`: 12 KiB on
Sepolia, 24 KiB on mainnet and by default on any other chain. -/
def expected_block_size (chain : EthereumNetwork) : Nat :=
  if chain = EthereumNetwork.SEPOLIA then 12 * 1024
  else if chain = EthereumNetwork.MAINNET then 24 * 1024
  else 24 * 1024

/-- The response-size estimate passed by `eth_get_block_by_number`, as a
function of the chain, the config and the `HEADER_SIZE_LIMIT` constant of
the transport layer (kept as a parameter, the transport sources not being
extracted). -/
def eth_get_block_by_number_estimate (chain : EthereumNetwork)
    (config : RpcConfig) (HEADER_SIZE_LIMIT : Nat) : ResponseSizeEstimate :=
  response_size_estimate config (expected_block_size chain + HEADER_SIZE_LIMIT)

end Client

section SpecSide

variable {P K T : Type}

/-- The ok entries of a result list: provider paired with decoded value. -/
def okEntries : List (P × Except RpcError T) → List (P × T)
  | [] => []
  | (p, Except.ok v) :: rest => (p, v) :: okEntries rest
  | (_, Except.error _) :: rest => okEntries rest

/-- The group of a projection key: the entries whose value projects to it. -/
def specGroup [DecidableEq K] (extractor : T → K) (m : List (P × T)) (k : K) :
    List (P × T) :=
  m.filter (fun pr => extractor pr.2 = k)

/-- The projection keys occurring in an entry list. -/
def keysOf (extractor : T → K) (m : List (P × T)) : List K :=
  m.map (fun pr => extractor pr.2)

end SpecSide

/-! ### Lemmas about the `BTreeMap` model -/

section BTreeLemmas

variable {K V : Type} [LinearOrder K] {k : K} {v : V} {l : List (K × V)}

theorem sortedKeys_cons_iff {a : K × V} :
    SortedKeys (a :: l) ↔ (∀ y ∈ l, a.1 < y.1) ∧ SortedKeys l := by
  simp [SortedKeys, List.pairwise_cons]

theorem btreeInsert_ne_nil (k : K) (v : V) (l : List (K × V)) :
    btreeInsert k v l ≠ [] := by
  cases l with
  | nil => simp [btreeInsert]
  | cons a rest =>
    obtain ⟨k1, v1⟩ := a
    simp only [btreeInsert]
    split_ifs <;> simp

theorem mem_of_mem_btreeInsert {x : K × V} (hx : x ∈ btreeInsert k v l) :
    x = (k, v) ∨ x ∈ l := by
  induction l with
  | nil => simpa [btreeInsert] using hx
  | cons a rest ih =>
    obtain ⟨k1, v1⟩ := a
    simp only [btreeInsert] at hx
    split_ifs at hx with h1 h2
    · rcases List.mem_cons.1 hx with h | h
      · exact Or.inl h
      · exact Or.inr h
    · rcases List.mem_cons.1 hx with h | h
      · exact Or.inl h
      · exact Or.inr (List.mem_cons_of_mem _ h)
    · rcases List.mem_cons.1 hx with h | h
      · exact Or.inr (h ▸ List.mem_cons_self _ _)
      · rcases ih h with h | h
        · exact Or.inl h
        · exact Or.inr (List.mem_cons_of_mem _ h)

theorem sortedKeys_btreeInsert (h : SortedKeys l) :
    SortedKeys (btreeInsert k v l) := by
  induction l with
  | nil => simp [btreeInsert, SortedKeys]
  | cons a rest ih =>
    obtain ⟨k1, v1⟩ := a
    obtain ⟨ha, hrest⟩ := sortedKeys_cons_iff.1 h
    simp only [btreeInsert]
    split_ifs with h1 h2
    · refine sortedKeys_cons_iff.2 ⟨?_, h⟩
      intro y hy
      rcases List.mem_cons.1 hy with h | h
      · exact h ▸ h1
      · exact lt_trans h1 (ha y h)
    · refine sortedKeys_cons_iff.2 ⟨?_, hrest⟩
      intro y hy
      exact h2 ▸ ha y hy
    · have hk1 : k1 < k := by
        rcases lt_trichotomy k k1 with h | h | h
        · exact absurd h h1
        · exact absurd h h2
        · exact h
      refine sortedKeys_cons_iff.2 ⟨?_, ih hrest⟩
      intro y hy
      rcases mem_of_mem_btreeInsert hy with h | h
      · exact h ▸ hk1
      · exact ha y h

theorem mem_btreeInsert (h : SortedKeys l) {x : K × V} :
    x ∈ btreeInsert k v l ↔ x = (k, v) ∨ (x ∈ l ∧ x.1 ≠ k) := by
  induction l with
  | nil => simp [btreeInsert]
  | cons a rest ih =>
    obtain ⟨k1, v1⟩ := a
    obtain ⟨ha, hrest⟩ := sortedKeys_cons_iff.1 h
    simp only [btreeInsert]
    split_ifs with h1 h2
    · constructor
      · intro hx
        rcases List.mem_cons.1 hx with hx | hx
        · exact Or.inl hx
        · refine Or.inr ⟨hx, ?_⟩
          rcases List.mem_cons.1 hx with hx1 | hx1
          · intro hc
            have hk : k1 = k := by rw [hx1] at hc; exact hc
            exact absurd (hk ▸ h1) (lt_irrefl k)
          · intro hc
            exact absurd (hc ▸ lt_trans h1 (ha x hx1)) (lt_irrefl _)
      · intro hx
        rcases hx with hx | ⟨hx, _⟩
        · exact hx ▸ List.mem_cons_self _ _
        · exact List.mem_cons_of_mem _ hx
    · subst h2
      constructor
      · intro hx
        rcases List.mem_cons.1 hx with hx | hx
        · exact Or.inl hx
        · exact Or.inr ⟨List.mem_cons_of_mem _ hx,
            fun hc => absurd (hc ▸ ha x hx) (lt_irrefl _)⟩
      · intro hx
        rcases hx with hx | ⟨hx, hxk⟩
        · exact hx ▸ List.mem_cons_self _ _
        · rcases List.mem_cons.1 hx with hx1 | hx1
          · exact absurd (congrArg Prod.fst hx1) hxk
          · exact List.mem_cons_of_mem _ hx1
    · have hk1 : k1 < k := by
        rcases lt_trichotomy k k1 with h | h | h
        · exact absurd h h1
        · exact absurd h h2
        · exact h
      constructor
      · intro hx
        rcases List.mem_cons.1 hx with hx | hx
        · refine Or.inr ⟨hx ▸ List.mem_cons_self _ _, ?_⟩
          intro hc
          rw [hx] at hc
          exact absurd (hc ▸ hk1) (lt_irrefl _)
        · rcases (ih hrest).1 hx with hx1 | hx1
          · exact Or.inl hx1
          · exact Or.inr ⟨List.mem_cons_of_mem _ hx1.1, hx1.2⟩
      · intro hx
        rcases hx with hx | ⟨hx, hxk⟩
        · exact List.mem_cons_of_mem _ ((ih hrest).2 (Or.inl hx))
        · rcases List.mem_cons.1 hx with hx1 | hx1
          · exact hx1 ▸ List.mem_cons_self _ _
          · exact List.mem_cons_of_mem _ ((ih hrest).2 (Or.inr ⟨hx1, hxk⟩))

theorem btreeInsert_append (h : ∀ e ∈ l, e.1 < k) :
    btreeInsert k v l = l ++ [(k, v)] := by
  induction l with
  | nil => simp [btreeInsert]
  | cons a rest ih =>
    obtain ⟨k1, v1⟩ := a
    have hk1 : k1 < k := h (k1, v1) (List.mem_cons_self _ _)
    simp only [btreeInsert]
    rw [if_neg (fun hc => absurd (lt_trans hc hk1) (lt_irrefl _)),
      if_neg (fun hc => absurd (hc ▸ hk1) (lt_irrefl _))]
    simp only [List.cons_append, List.cons.injEq, true_and]
    exact ih (fun e he => h e (List.mem_cons_of_mem _ he))

theorem btreeInsert_front (h : ∀ e ∈ l, k < e.1) :
    btreeInsert k v l = (k, v) :: l := by
  cases l with
  | nil => simp [btreeInsert]
  | cons a rest =>
    obtain ⟨k1, v1⟩ := a
    simp only [btreeInsert]
    rw [if_pos (h (k1, v1) (List.mem_cons_self _ _))]

end BTreeLemmas

section FoldLemmas

variable {K V : Type} [LinearOrder K] {k : K} {v : V} {l acc : List (K × V)}

theorem foldl_btreeInsert_sorted (l : List (K × V)) (acc : List (K × V))
    (h : SortedKeys acc) :
    SortedKeys (l.foldl (fun m kv => btreeInsert kv.1 kv.2 m) acc) := by
  induction l generalizing acc with
  | nil => exact h
  | cons a rest ih => exact ih _ (sortedKeys_btreeInsert h)

theorem foldl_btreeInsert_ne_nil (l : List (K × V)) (acc : List (K × V))
    (h : acc ≠ [] ∨ l ≠ []) :
    l.foldl (fun m kv => btreeInsert kv.1 kv.2 m) acc ≠ [] := by
  induction l generalizing acc with
  | nil =>
    rcases h with h | h
    · exact h
    · exact absurd rfl h
  | cons a rest ih =>
    exact ih _ (Or.inl (btreeInsert_ne_nil _ _ _))

theorem foldl_btreeInsert_append (l : List (K × V)) (acc : List (K × V))
    (hacc : SortedKeys acc) (hl : SortedKeys l)
    (hsep : ∀ e ∈ acc, ∀ f ∈ l, e.1 < f.1) :
    l.foldl (fun m kv => btreeInsert kv.1 kv.2 m) acc = acc ++ l := by
  induction l generalizing acc with
  | nil => simp
  | cons a rest ih =>
    obtain ⟨ha, hrest⟩ := sortedKeys_cons_iff.1 hl
    rw [List.foldl_cons]
    have h1 : btreeInsert a.1 a.2 acc = acc ++ [a] := by
      rw [btreeInsert_append (fun e he => hsep e he a (List.mem_cons_self _ _))]
    rw [h1, ih (acc ++ [a]) ?_ hrest ?_]
    · rw [List.append_assoc, List.singleton_append]
    · rw [SortedKeys, List.pairwise_append]
      refine ⟨hacc, List.pairwise_singleton _ _, ?_⟩
      intro e he b hb
      rw [List.mem_singleton] at hb
      exact hb ▸ hsep e he a (List.mem_cons_self _ _)
    · intro e he f hf
      rcases List.mem_append.1 he with he1 | he1
      · exact hsep e he1 f (List.mem_cons_of_mem _ hf)
      · rw [List.mem_singleton] at he1
        exact he1 ▸ ha f hf

theorem btreeFromIter_of_sorted (hl : SortedKeys l) : btreeFromIter l = l := by
  have := foldl_btreeInsert_append l [] (List.Pairwise.nil) hl (by simp)
  simpa [btreeFromIter] using this

theorem mem_foldl_btreeInsert (l : List (K × V)) (acc : List (K × V))
    (hacc : SortedKeys acc) (hnodup : (l.map Prod.fst).Nodup)
    (hdisj : ∀ e ∈ l, e.1 ∉ acc.map Prod.fst) {x : K × V} :
    x ∈ l.foldl (fun m kv => btreeInsert kv.1 kv.2 m) acc ↔ x ∈ acc ∨ x ∈ l := by
  induction l generalizing acc with
  | nil => simp
  | cons a rest ih =>
    rw [List.map_cons, List.nodup_cons] at hnodup
    have hins : ∀ y : K × V, y ∈ btreeInsert a.1 a.2 acc ↔ y = a ∨ y ∈ acc := by
      intro y
      rw [mem_btreeInsert hacc]
      constructor
      · rintro (h | ⟨h, _⟩)
        · exact Or.inl h
        · exact Or.inr h
      · rintro (h | h)
        · exact Or.inl h
        · refine Or.inr ⟨h, fun hc => hdisj a (List.mem_cons_self _ _) ?_⟩
          exact hc ▸ List.mem_map_of_mem Prod.fst h
    rw [List.foldl_cons,
      ih (btreeInsert a.1 a.2 acc) (sortedKeys_btreeInsert hacc) hnodup.2 ?_]
    · rw [hins x]
      constructor
      · rintro ((h | h) | h)
        · exact Or.inr (h ▸ List.mem_cons_self _ _)
        · exact Or.inl h
        · exact Or.inr (List.mem_cons_of_mem _ h)
      · rintro (h | h)
        · exact Or.inl (Or.inr h)
        · rcases List.mem_cons.1 h with h1 | h1
          · exact Or.inl (Or.inl h1)
          · exact Or.inr h1
    · intro e he hc
      rw [List.mem_map] at hc
      obtain ⟨y, hy, hyk⟩ := hc
      rcases mem_of_mem_btreeInsert hy with h1 | h1
      · apply hnodup.1
        have he1 : e.1 ∈ List.map Prod.fst rest := List.mem_map_of_mem Prod.fst he
        rw [← hyk] at he1
        rw [h1] at he1
        exact he1
      · exact hdisj e (List.mem_cons_of_mem _ he) (hyk ▸ List.mem_map_of_mem Prod.fst h1)

theorem btreeRemove_fst_eq_none_iff :
    (btreeRemove k l).1 = none ↔ k ∉ l.map Prod.fst := by
  induction l with
  | nil => simp [btreeRemove]
  | cons a rest ih =>
    obtain ⟨k1, v1⟩ := a
    simp only [btreeRemove]
    split_ifs with h1
    · simp [h1]
    · simpa [h1] using ih

theorem btreeRemove_snd_of_fst_none (h : (btreeRemove k l).1 = none) :
    (btreeRemove k l).2 = l := by
  induction l with
  | nil => rfl
  | cons a rest ih =>
    obtain ⟨k1, v1⟩ := a
    by_cases h1 : k = k1
    · exfalso
      simp [btreeRemove, h1] at h
    · simp only [btreeRemove, if_neg h1] at h ⊢
      have h2 : (btreeRemove k rest).1 = none := h
      simp only [List.cons.injEq, true_and]
      exact ih h2

theorem btreeRemove_fst_eq_some_iff (h : SortedKeys l) {g : V} :
    (btreeRemove k l).1 = some g ↔ (k, g) ∈ l := by
  induction l with
  | nil => simp [btreeRemove]
  | cons a rest ih =>
    obtain ⟨k1, v1⟩ := a
    obtain ⟨ha, hrest⟩ := sortedKeys_cons_iff.1 h
    simp only [btreeRemove]
    split_ifs with h1
    · subst h1
      constructor
      · intro hg
        have hg2 : v1 = g := by simpa using hg
        rw [← hg2]
        exact List.mem_cons_self _ _
      · intro hg
        rcases List.mem_cons.1 hg with h2 | h2
        · have h3 : g = v1 := congrArg Prod.snd h2
          simp [h3]
        · exact absurd (ha (k, g) h2) (lt_irrefl k)
    · constructor
      · intro hg
        have hg2 : (btreeRemove k rest).1 = some g := hg
        exact List.mem_cons_of_mem _ ((ih hrest).1 hg2)
      · intro hg
        rcases List.mem_cons.1 hg with h2 | h2
        · exact absurd (congrArg Prod.fst h2) h1
        · exact (ih hrest).2 h2

theorem mem_btreeRemove_snd_of_mem {x : K × V} (hx : x ∈ (btreeRemove k l).2) :
    x ∈ l := by
  induction l with
  | nil => simp [btreeRemove] at hx
  | cons a rest ih =>
    obtain ⟨k1, v1⟩ := a
    simp only [btreeRemove] at hx
    split_ifs at hx with h1
    · exact List.mem_cons_of_mem _ hx
    · simp only [List.mem_cons] at hx ⊢
      rcases hx with hx | hx
      · exact Or.inl hx
      · exact Or.inr (ih hx)

theorem sortedKeys_btreeRemove_snd (h : SortedKeys l) :
    SortedKeys (btreeRemove k l).2 := by
  induction l with
  | nil => simpa [btreeRemove] using h
  | cons a rest ih =>
    obtain ⟨k1, v1⟩ := a
    obtain ⟨ha, hrest⟩ := sortedKeys_cons_iff.1 h
    simp only [btreeRemove]
    split_ifs with h1
    · exact hrest
    · refine sortedKeys_cons_iff.2 ⟨?_, ih hrest⟩
      intro y hy
      exact ha y (mem_btreeRemove_snd_of_mem hy)

theorem mem_btreeRemove_snd_iff (h : SortedKeys l) {x : K × V} :
    x ∈ (btreeRemove k l).2 ↔ x ∈ l ∧ x.1 ≠ k := by
  induction l with
  | nil => simp [btreeRemove]
  | cons a rest ih =>
    obtain ⟨k1, v1⟩ := a
    obtain ⟨ha, hrest⟩ := sortedKeys_cons_iff.1 h
    simp only [btreeRemove]
    split_ifs with h1
    · subst h1
      constructor
      · intro hx
        exact ⟨List.mem_cons_of_mem _ hx,
          fun hc => absurd (hc ▸ ha x hx) (lt_irrefl _)⟩
      · rintro ⟨hx, hxk⟩
        rcases List.mem_cons.1 hx with hx1 | hx1
        · exact absurd (congrArg Prod.fst hx1) hxk
        · exact hx1
    · simp only [List.mem_cons]
      rw [ih hrest]
      constructor
      · rintro (hx | ⟨hx, hxk⟩)
        · refine ⟨Or.inl hx, ?_⟩
          intro hc
          rw [hx] at hc
          exact h1 (hc ▸ rfl)
        · exact ⟨Or.inr hx, hxk⟩
      · rintro ⟨hx | hx, hxk⟩
        · exact Or.inl hx
        · exact Or.inr ⟨hx, hxk⟩

end FoldLemmas

/-! ### Lemmas about `all_ok` -/

section AllOkLemmas

variable {P T : Type}

theorem expectAllOk_of_all_ok {l : List (P × Except RpcError T)}
    (hall : ∀ pr ∈ l, ∃ v, pr.2 = Except.ok v) :
    expectAllOk l = some (okEntries l) := by
  induction l with
  | nil => rfl
  | cons a rest ih =>
    obtain ⟨p, r⟩ := a
    obtain ⟨v, hv⟩ := hall (p, r) (List.mem_cons_self _ _)
    cases r with
    | error e => exact absurd hv (by simp)
    | ok w =>
      rw [expectAllOk, okEntries, ih (fun pr hpr => hall pr (List.mem_cons_of_mem _ hpr))]
      rfl

theorem all_ok_loop_all_ok {l : List (P × Except RpcError T)} {h : Bool}
    {fe : Option (P × Except RpcError T)}
    (hall : ∀ pr ∈ l, ∃ v, pr.2 = Except.ok v) :
    all_ok_loop l h fe = Except.ok ((h || !l.isEmpty), fe) := by
  induction l generalizing h with
  | nil => simp [all_ok_loop]
  | cons a rest ih =>
    obtain ⟨p, r⟩ := a
    obtain ⟨v, hv⟩ := hall (p, r) (List.mem_cons_self _ _)
    cases r with
    | error e => exact absurd hv (by simp)
    | ok w =>
      rw [all_ok_loop, ih (fun pr hpr => hall pr (List.mem_cons_of_mem _ hpr))]
      simp

theorem all_ok_loop_consistent (l : List (P × Except RpcError T)) (h : Bool)
    (fp : P) (fe0 : RpcError)
    (hcons : ∀ pr ∈ l, ∀ e, pr.2 = Except.error e → errors_consistent fe0 e = true) :
    ∃ b, all_ok_loop l h (some (fp, Except.error fe0)) =
        Except.ok (b, some (fp, Except.error fe0)) ∧
      (b = true ↔ (h = true ∨ ∃ pr ∈ l, ∃ v, pr.2 = Except.ok v)) := by
  induction l generalizing h with
  | nil =>
    refine ⟨h, rfl, ?_⟩
    simp
  | cons a rest ih =>
    obtain ⟨p, r⟩ := a
    cases r with
    | ok w =>
      obtain ⟨b, heq, hb⟩ := ih true
        (fun pr hpr => hcons pr (List.mem_cons_of_mem _ hpr))
      refine ⟨b, by rw [all_ok_loop, heq], ?_⟩
      rw [hb]
      constructor
      · intro _
        exact Or.inr ⟨(p, Except.ok w), List.mem_cons_self _ _, w, rfl⟩
      · intro _
        exact Or.inl rfl
    | error e =>
      have hc : errors_consistent fe0 e = true :=
        hcons (p, Except.error e) (List.mem_cons_self _ _) e rfl
      obtain ⟨b, heq, hb⟩ := ih h
        (fun pr hpr => hcons pr (List.mem_cons_of_mem _ hpr))
      refine ⟨b, ?_, ?_⟩
      · rw [all_ok_loop]
        simp only [are_errors_consistent, hc, if_true]
        exact heq
      · rw [hb]
        constructor
        · rintro (h1 | ⟨pr, hpr, v, hv⟩)
          · exact Or.inl h1
          · exact Or.inr ⟨pr, List.mem_cons_of_mem _ hpr, v, hv⟩
        · rintro (h1 | ⟨pr, hpr, v, hv⟩)
          · exact Or.inl h1
          · rcases List.mem_cons.1 hpr with h2 | h2
            · rw [h2] at hv
              exact absurd hv (by simp)
            · exact Or.inr ⟨pr, h2, v, hv⟩

theorem all_ok_loop_inconsistent (l : List (P × Except RpcError T)) (h : Bool)
    (fp : P) (fe0 : RpcError)
    (hbad : ∃ pr ∈ l, ∃ e, pr.2 = Except.error e ∧ errors_consistent fe0 e = false) :
    all_ok_loop l h (some (fp, Except.error fe0)) = Except.error () := by
  induction l generalizing h with
  | nil => simp at hbad
  | cons a rest ih =>
    obtain ⟨p, r⟩ := a
    obtain ⟨pr, hpr, e, he, hce⟩ := hbad
    cases r with
    | ok w =>
      rw [all_ok_loop]
      apply ih
      rcases List.mem_cons.1 hpr with h2 | h2
      · rw [h2] at he
        exact absurd he (by simp)
      · exact ⟨pr, h2, e, he, hce⟩
    | error e1 =>
      rw [all_ok_loop]
      by_cases hc : errors_consistent fe0 e1 = true
      · simp only [are_errors_consistent, hc, if_true]
        apply ih
        rcases List.mem_cons.1 hpr with h2 | h2
        · rw [h2] at he
          have : e1 = e := by simpa using he
          rw [this] at hc
          rw [hc] at hce
          exact absurd hce (by simp)
        · exact ⟨pr, h2, e, he, hce⟩
      · simp only [are_errors_consistent]
        rw [if_neg hc]

theorem all_ok_loop_split {pre post : List (P × Except RpcError T)} {h : Bool}
    {p : P} {e0 : RpcError}
    (hpre : ∀ pr ∈ pre, ∃ v, pr.2 = Except.ok v) :
    all_ok_loop (pre ++ (p, Except.error e0) :: post) h none =
      all_ok_loop post (h || !pre.isEmpty) (some (p, Except.error e0)) := by
  induction pre generalizing h with
  | nil => simp [all_ok_loop]
  | cons a pre1 ih =>
    obtain ⟨q, r⟩ := a
    obtain ⟨v, hv⟩ := hpre (q, r) (List.mem_cons_self _ _)
    cases r with
    | error e => exact absurd hv (by simp)
    | ok w =>
      rw [List.cons_append, all_ok_loop,
        ih (fun pr hpr => hpre pr (List.mem_cons_of_mem _ hpr))]
      simp

theorem exists_first_error_split {l : List (P × Except RpcError T)}
    (h : ∃ pr ∈ l, ∃ e, pr.2 = Except.error e) :
    ∃ pre p e0 post, l = pre ++ (p, Except.error e0) :: post ∧
      ∀ pr ∈ pre, ∃ v, pr.2 = Except.ok v := by
  induction l with
  | nil => simp at h
  | cons a rest ih =>
    obtain ⟨p, r⟩ := a
    cases r with
    | error e =>
      exact ⟨[], p, e, rest, rfl, by simp⟩
    | ok w =>
      obtain ⟨pr, hpr, e, he⟩ := h
      rcases List.mem_cons.1 hpr with h2 | h2
      · rw [h2] at he
        exact absurd he (by simp)
      · obtain ⟨pre, p1, e1, post, hsplit, hpre⟩ := ih ⟨pr, h2, e, he⟩
        refine ⟨(p, Except.ok w) :: pre, p1, e1, post, by rw [hsplit]; rfl, ?_⟩
        intro pr1 hpr1
        rcases List.mem_cons.1 hpr1 with h3 | h3
        · exact ⟨w, by rw [h3]⟩
        · exact hpre pr1 h3

theorem all_ok_of_all_entries_ok (mc : MultiCallResults P T)
    (hall : ∀ pr ∈ mc.results, ∃ v, pr.2 = Except.ok v) :
    all_ok mc = some (Except.ok (okEntries mc.results)) := by
  rw [all_ok, all_ok_loop_all_ok hall, expectAllOk_of_all_ok hall]
  rfl

theorem all_ok_ne_none (mc : MultiCallResults P T) : all_ok mc ≠ none := by
  by_cases hall : ∀ pr ∈ mc.results, ∃ v, pr.2 = Except.ok v
  · rw [all_ok_of_all_entries_ok mc hall]
    simp
  · have herr : ∃ pr ∈ mc.results, ∃ e, pr.2 = Except.error e := by
      push_neg at hall
      obtain ⟨pr, hpr, hne⟩ := hall
      refine ⟨pr, hpr, ?_⟩
      cases hr : pr.2 with
      | error e => exact ⟨e, rfl⟩
      | ok v => exact absurd hr (hne v)
    obtain ⟨pre, p, e0, post, hsplit, hpre⟩ := exists_first_error_split herr
    rw [all_ok, hsplit, all_ok_loop_split hpre]
    by_cases hcons : ∀ pr ∈ post, ∀ e, pr.2 = Except.error e →
        errors_consistent e0 e = true
    · obtain ⟨b, heq, -⟩ := all_ok_loop_consistent post (false || !pre.isEmpty)
        p e0 hcons
      rw [heq]
      cases b <;> simp
    · push_neg at hcons
      obtain ⟨pr, hpr, e, he, hce⟩ := hcons
      rw [all_ok_loop_inconsistent post (false || !pre.isEmpty) p e0
        ⟨pr, hpr, e, he, by simpa using hce⟩]
      simp

end AllOkLemmas

/-! ### Lemmas about `okEntries`, `from_non_empty_iter` and `all_ok` output shapes -/

section ShapeLemmas

variable {P T : Type}

theorem mem_okEntries {l : List (P × Except RpcError T)} {p : P} {v : T} :
    (p, v) ∈ okEntries l ↔ (p, Except.ok v) ∈ l := by
  induction l with
  | nil => simp [okEntries]
  | cons a rest ih =>
    obtain ⟨q, r⟩ := a
    cases r with
    | ok w =>
      simp only [okEntries, List.mem_cons, Prod.mk.injEq, Except.ok.injEq]
      rw [ih]
    | error e =>
      simp only [okEntries, List.mem_cons, Prod.mk.injEq]
      rw [ih]
      constructor
      · exact fun h => Or.inr h
      · rintro (⟨-, h⟩ | h)
        · exact absurd h (by simp)
        · exact h

theorem sortedKeys_okEntries [LinearOrder P] {l : List (P × Except RpcError T)}
    (h : SortedKeys l) : SortedKeys (okEntries l) := by
  induction l with
  | nil => exact List.Pairwise.nil
  | cons a rest ih =>
    obtain ⟨q, r⟩ := a
    obtain ⟨ha, hrest⟩ := sortedKeys_cons_iff.1 h
    cases r with
    | ok w =>
      rw [okEntries]
      refine sortedKeys_cons_iff.2 ⟨?_, ih hrest⟩
      intro y hy
      have : (y.1, Except.ok y.2) ∈ rest := mem_okEntries.1 (by simpa using hy)
      exact ha (y.1, Except.ok y.2) this
    | error e =>
      rw [okEntries]
      exact ih hrest

theorem okEntries_length_of_all_ok {l : List (P × Except RpcError T)}
    (hall : ∀ pr ∈ l, ∃ v, pr.2 = Except.ok v) :
    (okEntries l).length = l.length := by
  induction l with
  | nil => rfl
  | cons a rest ih =>
    obtain ⟨p, r⟩ := a
    obtain ⟨v, hv⟩ := hall (p, r) (List.mem_cons_self _ _)
    cases r with
    | error e => exact absurd hv (by simp)
    | ok w =>
      rw [okEntries, List.length_cons, List.length_cons,
        ih (fun pr hpr => hall pr (List.mem_cons_of_mem _ hpr))]

theorem expectAllOk_length {l : List (P × Except RpcError T)} {m : List (P × T)}
    (h : expectAllOk l = some m) : m.length = l.length := by
  induction l generalizing m with
  | nil =>
    injection h with h
    rw [← h]
    rfl
  | cons a rest ih =>
    obtain ⟨p, r⟩ := a
    cases r with
    | error e => exact absurd h (by simp [expectAllOk])
    | ok w =>
      rw [expectAllOk] at h
      cases hrest : expectAllOk rest with
      | none => rw [hrest] at h; exact absurd h (by simp)
      | some m1 =>
        rw [hrest] at h
        simp only [Option.map_some', Option.some.injEq] at h
        rw [← h, List.length_cons, List.length_cons, ih hrest]

theorem from_non_empty_iter_nil [LinearOrder P] :
    from_non_empty_iter ([] : List (P × Except RpcError T)) = none := rfl

theorem from_non_empty_iter_of_ne_nil [LinearOrder P]
    {l : List (P × Except RpcError T)} (h : l ≠ []) :
    from_non_empty_iter l = some ⟨btreeFromIter l⟩ ∧ btreeFromIter l ≠ [] := by
  have hne : btreeFromIter l ≠ [] := foldl_btreeInsert_ne_nil l [] (Or.inr h)
  constructor
  · have hb : ¬((btreeFromIter l).isEmpty = true) := by simpa using hne
    simp only [from_non_empty_iter]
    rw [if_neg hb]
  · exact hne

theorem all_ok_inconsistent_eq_self (mc : MultiCallResults P T)
    {r : MultiCallResults P T}
    (h : all_ok mc = some (Except.error (MultiCallError.InconsistentResults r))) :
    r = mc := by
  rw [all_ok] at h
  split at h
  · injection h with h
    injection h with h
    injection h with h
    exact h.symm
  · split at h
    · cases hexp : expectAllOk mc.results with
      | none => simp at h
      | some m => simp at h
    · split at h
      · injection h with h
        injection h with h
        injection h with h
        exact h.symm
      · simp at h
    · simp at h

theorem all_ok_ok_shape (mc : MultiCallResults P T) {m : List (P × T)}
    (h : all_ok mc = some (Except.ok m)) : expectAllOk mc.results = some m := by
  rw [all_ok] at h
  split at h
  · simp at h
  · split at h
    · cases hexp : expectAllOk mc.results with
      | none => rw [hexp] at h; simp at h
      | some m1 =>
        rw [hexp] at h
        simp only [Option.map_some', Option.some.injEq, Except.ok.injEq] at h
        rw [h]
    · split at h
      · simp at h
      · simp at h
    · simp at h

end ShapeLemmas

/-! ### Lemmas about `reduce_with_equality` -/

section EqualityLemmas

variable {P T : Type} [LinearOrder P] [DecidableEq T]

theorem reduce_with_equality_of_consistent (mc : MultiCallResults P T)
    {p0 : P} {v0 : T} {rest : List (P × Except RpcError T)}
    (hres : mc.results = (p0, Except.ok v0) :: rest)
    (hall : ∀ pr ∈ mc.results, ∃ v, pr.2 = Except.ok v)
    (hagree : ∀ pr ∈ okEntries rest, pr.2 = v0) :
    reduce_with_equality mc = some (Except.ok v0) := by
  rw [reduce_with_equality, all_ok_of_all_entries_ok mc hall, Option.some_bind, hres]
  simp only [okEntries]
  have hfil : (okEntries rest).filter (fun pr => pr.2 ≠ v0) = [] := by
    rw [List.filter_eq_nil_iff]
    intro pr hpr
    simp [hagree pr hpr]
  rw [hfil]
  rfl

theorem reduce_with_equality_of_dissent (mc : MultiCallResults P T)
    {p0 : P} {v0 : T} {rest : List (P × Except RpcError T)}
    (hres : mc.results = (p0, Except.ok v0) :: rest)
    (hsorted : SortedKeys mc.results)
    (hall : ∀ pr ∈ mc.results, ∃ v, pr.2 = Except.ok v)
    (hdis : ∃ pr ∈ okEntries rest, pr.2 ≠ v0) :
    reduce_with_equality mc = some (Except.error (MultiCallError.InconsistentResults
      ⟨(p0, Except.ok v0) :: ((okEntries rest).filter (fun pr => pr.2 ≠ v0)).map
        (fun pr => (pr.1, Except.ok pr.2))⟩)) := by
  have hrest_sorted : SortedKeys rest := by
    rw [hres] at hsorted
    exact (sortedKeys_cons_iff.1 hsorted).2
  have hhead : ∀ y ∈ rest, p0 < y.1 := by
    rw [hres] at hsorted
    exact (sortedKeys_cons_iff.1 hsorted).1
  have hok_sorted : SortedKeys (okEntries rest) := sortedKeys_okEntries hrest_sorted
  have hfil_sorted : SortedKeys ((okEntries rest).filter (fun pr => pr.2 ≠ v0)) :=
    List.Pairwise.sublist (List.filter_sublist _) hok_sorted
  have hmap_sorted : SortedKeys (((okEntries rest).filter (fun pr => pr.2 ≠ v0)).map
      (fun pr => (pr.1, Except.ok pr.2)) : List (P × Except RpcError T)) := by
    rw [SortedKeys, List.pairwise_map]
    exact hfil_sorted
  have hfil_ne : (okEntries rest).filter (fun pr => pr.2 ≠ v0) ≠ [] := by
    obtain ⟨pr, hpr, hne⟩ := hdis
    intro hc
    rw [List.filter_eq_nil_iff] at hc
    exact hc pr hpr (by simpa using hne)
  rw [reduce_with_equality, all_ok_of_all_entries_ok mc hall, Option.some_bind, hres]
  simp only [okEntries]
  have hempty : ((okEntries rest).filter (fun pr => pr.2 ≠ v0)).isEmpty = false := by
    simpa using hfil_ne
  rw [hempty]
  have hfold : btreeFromIter
      ((((okEntries rest).filter (fun pr => pr.2 ≠ v0)) ++ [(p0, v0)]).map
        (fun pr => (pr.1, (Except.ok pr.2 : Except RpcError T)))) =
      (p0, Except.ok v0) :: ((okEntries rest).filter (fun pr => pr.2 ≠ v0)).map
        (fun pr => (pr.1, (Except.ok pr.2 : Except RpcError T))) := by
    rw [List.map_append, btreeFromIter, List.foldl_append]
    have h1 : (((okEntries rest).filter (fun pr => pr.2 ≠ v0)).map
        (fun pr => (pr.1, (Except.ok pr.2 : Except RpcError T)))).foldl
          (fun m kv => btreeInsert kv.1 kv.2 m) [] =
        ((okEntries rest).filter (fun pr => pr.2 ≠ v0)).map
          (fun pr => (pr.1, (Except.ok pr.2 : Except RpcError T))) := by
      have := btreeFromIter_of_sorted hmap_sorted
      rw [btreeFromIter] at this
      exact this
    rw [h1, List.map_singleton, List.foldl_cons, List.foldl_nil]
    apply btreeInsert_front
    intro e he
    rw [List.mem_map] at he
    obtain ⟨pr, hpr, hepr⟩ := he
    rw [List.mem_filter] at hpr
    have hmem : (pr.1, Except.ok pr.2) ∈ rest := by
      apply mem_okEntries.1
      obtain ⟨a, b⟩ := pr
      exact hpr.1
    have := hhead (pr.1, Except.ok pr.2) hmem
    rw [← hepr]
    exact this
  rw [if_neg (by simp)]
  have hfni : from_non_empty_iter
      ((((okEntries rest).filter (fun pr => pr.2 ≠ v0)) ++ [(p0, v0)]).map
        (fun pr => (pr.1, (Except.ok pr.2 : Except RpcError T)))) =
      some ⟨(p0, Except.ok v0) :: ((okEntries rest).filter (fun pr => pr.2 ≠ v0)).map
        (fun pr => (pr.1, Except.ok pr.2))⟩ := by
    simp only [from_non_empty_iter, hfold]
    rw [if_neg (by simp)]
  rw [hfni]

theorem reduce_with_equality_ne_none (mc : MultiCallResults P T)
    (hne : mc.results ≠ []) : reduce_with_equality mc ≠ none := by
  cases hao : all_ok mc with
  | none => exact absurd hao (all_ok_ne_none mc)
  | some r =>
    cases r with
    | error e =>
      rw [reduce_with_equality, hao, Option.some_bind]
      intro hc
      exact Option.noConfusion hc
    | ok m =>
      have hexp := all_ok_ok_shape mc hao
      have hlen := expectAllOk_length hexp
      have hm : m ≠ [] := by
        intro hc
        rw [hc] at hlen
        exact hne (List.length_eq_zero.1 hlen.symm)
      obtain ⟨b, t, hbt⟩ : ∃ b t, m = b :: t := by
        cases m with
        | nil => exact absurd rfl hm
        | cons b t => exact ⟨b, t, rfl⟩
      rw [reduce_with_equality, hao, Option.some_bind, hbt]
      obtain ⟨bp, bv⟩ := b
      show (if ((t.filter (fun pr => pr.2 ≠ bv)).isEmpty = true) then some (Except.ok bv)
          else match from_non_empty_iter (((t.filter (fun pr => pr.2 ≠ bv)) ++ [(bp, bv)]).map
              (fun pr => (pr.1, Except.ok pr.2))) with
            | none => none
            | some payload =>
              some (Except.error (MultiCallError.InconsistentResults payload))) ≠ none
      by_cases hemp : t.filter (fun pr => pr.2 ≠ bv) = []
      · rw [hemp]
        simp
      · rw [if_neg (by simp only [List.isEmpty_eq_true]; exact hemp)]
        have hne2 : ((t.filter (fun pr => pr.2 ≠ bv)) ++ [(bp, bv)]).map
            (fun pr => (pr.1, Except.ok pr.2)) ≠ ([] : List (P × Except RpcError T)) := by
          simp
        obtain ⟨heq, -⟩ := from_non_empty_iter_of_ne_nil hne2
        rw [heq]
        simp

theorem reduce_with_equality_payload_ne_nil (mc : MultiCallResults P T)
    (hne : mc.results ≠ []) {r : MultiCallResults P T}
    (h : reduce_with_equality mc =
      some (Except.error (MultiCallError.InconsistentResults r))) :
    r.results ≠ [] := by
  cases hao : all_ok mc with
  | none => exact absurd hao (all_ok_ne_none mc)
  | some s =>
    cases s with
    | error e =>
      rw [reduce_with_equality, hao, Option.some_bind] at h
      have h2 : (some (Except.error e) : Option (Except (MultiCallError P T) T)) =
          some (Except.error (MultiCallError.InconsistentResults r)) := h
      injection h2 with h2
      injection h2 with h2
      rw [h2] at hao
      have hr : r = mc := all_ok_inconsistent_eq_self mc hao
      rw [hr]
      exact hne
    | ok m =>
      have hexp := all_ok_ok_shape mc hao
      have hlen := expectAllOk_length hexp
      have hm : m ≠ [] := by
        intro hc
        rw [hc] at hlen
        exact hne (List.length_eq_zero.1 hlen.symm)
      obtain ⟨b, t, hbt⟩ : ∃ b t, m = b :: t := by
        cases m with
        | nil => exact absurd rfl hm
        | cons b t => exact ⟨b, t, rfl⟩
      rw [reduce_with_equality, hao, Option.some_bind, hbt] at h
      obtain ⟨bp, bv⟩ := b
      replace h : (if ((t.filter (fun pr => pr.2 ≠ bv)).isEmpty = true) then some (Except.ok bv)
          else match from_non_empty_iter (((t.filter (fun pr => pr.2 ≠ bv)) ++ [(bp, bv)]).map
              (fun pr => (pr.1, Except.ok pr.2))) with
            | none => none
            | some payload =>
              some (Except.error (MultiCallError.InconsistentResults payload))) =
          some (Except.error (MultiCallError.InconsistentResults r)) := h
      by_cases hemp : t.filter (fun pr => pr.2 ≠ bv) = []
      · rw [hemp] at h
        simp at h
      · rw [if_neg (by simp only [List.isEmpty_eq_true]; exact hemp)] at h
        have hne2 : ((t.filter (fun pr => pr.2 ≠ bv)) ++ [(bp, bv)]).map
            (fun pr => (pr.1, Except.ok pr.2)) ≠ ([] : List (P × Except RpcError T)) := by
          simp
        obtain ⟨heq, hfne⟩ := from_non_empty_iter_of_ne_nil hne2
        rw [heq] at h
        have h2 : some (Except.error (MultiCallError.InconsistentResults
            (⟨btreeFromIter (((t.filter (fun pr => pr.2 ≠ bv)) ++ [(bp, bv)]).map
              (fun pr => (pr.1, Except.ok pr.2)))⟩ : MultiCallResults P T))) =
            some (Except.error (MultiCallError.InconsistentResults r)) := h
        injection h2 with h2
        injection h2 with h2
        injection h2 with h2
        rw [← h2]
        exact hfne

end EqualityLemmas

/-! ### Lemmas about `sequential_call_until_ok` -/

section SequentialLemmas

variable {P O : Type}

theorem sequential_call_loop_all_error (calls : List (P × Except RpcError O))
    (hne : calls ≠ []) (hall : ∀ pr ∈ calls, ∃ e, pr.2 = Except.error e) :
    ∀ last, sequential_call_loop calls last = some ((calls.getLast hne).2) := by
  induction calls with
  | nil => exact absurd rfl hne
  | cons a rest ih =>
    intro last
    obtain ⟨p, r⟩ := a
    obtain ⟨e, he⟩ := hall (p, r) (List.mem_cons_self _ _)
    have he2 : r = Except.error e := he
    subst he2
    cases rest with
    | nil =>
      cases e <;> rfl
    | cons b rest1 =>
      have hne2 : b :: rest1 ≠ ([] : List (P × Except RpcError O)) := by simp
      have hih := ih hne2 (fun pr hpr => hall pr (List.mem_cons_of_mem _ hpr))
      have hlast : ((p, Except.error e) :: b :: rest1).getLast hne =
          (b :: rest1).getLast hne2 := by
        rw [List.getLast_cons hne2]
      rw [hlast]
      cases e with
      | JsonRpcError c msg =>
        exact hih (some (Except.error (RpcError.JsonRpcError c msg)))
      | Transport k d => exact hih (some (Except.error (RpcError.Transport k d)))
      | Provider k => exact hih (some (Except.error (RpcError.Provider k)))

theorem sequential_call_loop_first_ok (pre post : List (P × Except RpcError O))
    (p : P) (v : O) (hpre : ∀ pr ∈ pre, ∃ e, pr.2 = Except.error e) :
    ∀ last, sequential_call_loop (pre ++ (p, Except.ok v) :: post) last =
      some (Except.ok v) := by
  induction pre with
  | nil => intro last; rfl
  | cons a pre1 ih =>
    intro last
    obtain ⟨q, r⟩ := a
    obtain ⟨e, he⟩ := hpre (q, r) (List.mem_cons_self _ _)
    have he2 : r = Except.error e := he
    subst he2
    have hih := ih (fun pr hpr => hpre pr (List.mem_cons_of_mem _ hpr))
    cases e with
    | JsonRpcError c msg =>
      exact hih (some (Except.error (RpcError.JsonRpcError c msg)))
    | Transport k d => exact hih (some (Except.error (RpcError.Transport k d)))
    | Provider k => exact hih (some (Except.error (RpcError.Provider k)))

end SequentialLemmas

/-! ### Lemmas about `reduce_with_strict_majority_by_key` -/

section MajorityLemmas

variable {P K T : Type} [LinearOrder P] [LinearOrder K] [DecidableEq T]

theorem group_loop_cons_found (ext : T → K) (p : P) (t : T)
    (rest : List (P × T)) (acc : List (K × List (P × T)))
    (g : List (P × T)) (acc1 : List (K × List (P × T))) (q : P) (w : T)
    (hrem : btreeRemove (ext t) acc = (some g, acc1))
    (hlast : g.getLast? = some (q, w)) (heqv : t = w) :
    group_by_key_loop ext ((p, t) :: rest) acc =
      group_by_key_loop ext rest (btreeInsert (ext t) (btreeInsert p t g) acc1) := by
  simp only [group_by_key_loop, hrem, hlast]
  rw [if_neg (not_not_intro heqv)]

theorem group_loop_cons_conflict (ext : T → K) (p : P) (t : T)
    (rest : List (P × T)) (acc : List (K × List (P × T)))
    (g : List (P × T)) (acc1 : List (K × List (P × T))) (q : P) (w : T)
    (hrem : btreeRemove (ext t) acc = (some g, acc1))
    (hlast : g.getLast? = some (q, w)) (hne : t ≠ w) :
    group_by_key_loop ext ((p, t) :: rest) acc =
      (match from_non_empty_iter ((g ++ [(p, t)]).map
          (fun pr => (pr.1, (Except.ok pr.2 : Except RpcError T)))) with
        | none => none
        | some payload => some (Except.error payload)) := by
  simp only [group_by_key_loop, hrem, hlast]
  rw [if_pos hne]

theorem group_loop_cons_new (ext : T → K) (p : P) (t : T)
    (rest : List (P × T)) (acc : List (K × List (P × T)))
    (acc1 : List (K × List (P × T)))
    (hrem : btreeRemove (ext t) acc = (none, acc1)) :
    group_by_key_loop ext ((p, t) :: rest) acc =
      group_by_key_loop ext rest (btreeInsert (ext t) [(p, t)] acc1) := by
  simp only [group_by_key_loop, hrem]

/-- The central invariant of the grouping loop: starting from an accumulator
that groups the processed prefix correctly, the loop never panics; when it
completes, the final `votes_by_key` groups the whole input by projection key
with structurally equal values inside each group; when it early-returns, the
payload consists of ok-wrapped same-key entries of the input among which two
values differ. -/
theorem group_loop_main (ext : T → K) :
    ∀ (rest done : List (P × T)) (acc : List (K × List (P × T))),
    SortedKeys (done ++ rest) →
    SortedKeys acc →
    (∀ kg ∈ acc, kg.2 = specGroup ext done kg.1 ∧ kg.2 ≠ [] ∧
      (∀ q1 ∈ kg.2, ∀ q2 ∈ kg.2, q1.2 = q2.2)) →
    (∀ pr ∈ done, ∃ g, (ext pr.2, g) ∈ acc) →
    ∃ r, group_by_key_loop ext rest acc = some r ∧
      (∀ votes, r = Except.ok votes →
        SortedKeys votes ∧
        (∀ kg ∈ votes, kg.2 = specGroup ext (done ++ rest) kg.1 ∧ kg.2 ≠ [] ∧
          (∀ q1 ∈ kg.2, ∀ q2 ∈ kg.2, q1.2 = q2.2)) ∧
        (∀ pr ∈ done ++ rest, ∃ g, (ext pr.2, g) ∈ votes)) ∧
      (∀ payload, r = Except.error payload →
        payload.results ≠ [] ∧
        ∃ k, (∀ pp ee, (pp, ee) ∈ payload.results →
            ∃ v, ee = Except.ok v ∧ (pp, v) ∈ done ++ rest ∧ ext v = k) ∧
          ∃ p1 v1 p2 v2, (p1, Except.ok v1) ∈ payload.results ∧
            (p2, Except.ok v2) ∈ payload.results ∧ v1 ≠ v2) := by
  intro rest
  induction rest with
  | nil =>
    intro done acc hsm hS hG hK
    refine ⟨Except.ok acc, rfl, ?_, ?_⟩
    · intro votes hv
      injection hv with hv
      subst hv
      rw [List.append_nil]
      exact ⟨hS, hG, hK⟩
    · intro payload hp
      exact absurd hp (by simp)
  | cons cur rest1 ih =>
    intro done acc hsm hS hG hK
    obtain ⟨p, t⟩ := cur
    have hsm' : SortedKeys ((done ++ [(p, t)]) ++ rest1) := by
      rw [List.append_assoc, List.singleton_append]
      exact hsm
    have hpw := hsm
    rw [SortedKeys, List.pairwise_append] at hpw
    have hdone_sorted : SortedKeys done := hpw.1
    have hdone_lt : ∀ e ∈ done, e.1 < p :=
      fun e he => hpw.2.2 e he (p, t) (List.mem_cons_self _ _)
    have hspec_k : specGroup ext (done ++ [(p, t)]) (ext t) =
        specGroup ext done (ext t) ++ [(p, t)] := by
      simp [specGroup, List.filter_append]
    have hspec_other : ∀ k1 : K, k1 ≠ ext t →
        specGroup ext (done ++ [(p, t)]) k1 = specGroup ext done k1 := by
      intro k1 hk1
      simp [specGroup, List.filter_append, Ne.symm hk1]
    cases hrem : btreeRemove (ext t) acc with
    | mk fst acc1 =>
      cases fst with
      | some g =>
        have hmem_acc : (ext t, g) ∈ acc := by
          apply (btreeRemove_fst_eq_some_iff hS).1
          rw [hrem]
        obtain ⟨hgspec0, hgne0, hgeq⟩ := hG (ext t, g) hmem_acc
        have hgspec2 : g = specGroup ext done (ext t) := hgspec0
        have hgne : g ≠ [] := hgne0
        have hlast := List.getLast?_eq_getLast g hgne
        obtain ⟨q, w, hqw⟩ : ∃ q w, g.getLast hgne = (q, w) :=
          ⟨(g.getLast hgne).1, (g.getLast hgne).2, rfl⟩
        have hlastqw : g.getLast? = some (q, w) := by
          rw [← hqw]
          exact hlast
        have hweq : (q, w) ∈ g := by
          rw [← hqw]
          exact List.getLast_mem hgne
        have hacc1_sorted : SortedKeys acc1 := by
          have h0 := sortedKeys_btreeRemove_snd (k := ext t) hS
          rw [hrem] at h0
          exact h0
        have hacc1_mem : ∀ x : K × List (P × T), x ∈ acc1 ↔ x ∈ acc ∧ x.1 ≠ ext t := by
          intro x
          have h0 := mem_btreeRemove_snd_iff (k := ext t) hS (x := x)
          rw [hrem] at h0
          exact h0
        have hg_sub_done : ∀ x ∈ g, x ∈ done := by
          intro x hx
          rw [hgspec2] at hx
          exact List.mem_of_mem_filter hx
        by_cases hconf : t = w
        · rw [group_loop_cons_found ext p t rest1 acc g acc1 q w hrem hlastqw hconf]
          have hins_g : btreeInsert p t g = g ++ [(p, t)] :=
            btreeInsert_append (fun e he => hdone_lt e (hg_sub_done e he))
          have hS' : SortedKeys (btreeInsert (ext t) (btreeInsert p t g) acc1) :=
            sortedKeys_btreeInsert hacc1_sorted
          have hmem' : ∀ x : K × List (P × T),
              x ∈ btreeInsert (ext t) (btreeInsert p t g) acc1 ↔
              x = (ext t, btreeInsert p t g) ∨ (x ∈ acc1 ∧ x.1 ≠ ext t) :=
            fun x => mem_btreeInsert hacc1_sorted
          have hG' : ∀ kg ∈ btreeInsert (ext t) (btreeInsert p t g) acc1,
              kg.2 = specGroup ext (done ++ [(p, t)]) kg.1 ∧ kg.2 ≠ [] ∧
              (∀ q1 ∈ kg.2, ∀ q2 ∈ kg.2, q1.2 = q2.2) := by
            intro kg hkg
            rcases (hmem' kg).1 hkg with hkg1 | ⟨hkg1, hkgne⟩
            · subst hkg1
              refine ⟨?_, btreeInsert_ne_nil _ _ _, ?_⟩
              · show btreeInsert p t g = specGroup ext (done ++ [(p, t)]) (ext t)
                rw [hins_g, hspec_k, hgspec2]
              · show ∀ q1 ∈ btreeInsert p t g, ∀ q2 ∈ btreeInsert p t g, q1.2 = q2.2
                rw [hins_g]
                have hval : ∀ x ∈ g ++ [(p, t)], x.2 = w := by
                  intro x hx
                  rcases List.mem_append.1 hx with hx | hx
                  · exact hgeq x hx (q, w) hweq
                  · rw [List.mem_singleton] at hx
                    rw [hx]
                    exact hconf
                intro q1 hq1 q2 hq2
                rw [hval q1 hq1, hval q2 hq2]
            · obtain ⟨hspec0, hne0, heq0⟩ := hG kg ((hacc1_mem kg).1 hkg1).1
              refine ⟨?_, hne0, heq0⟩
              rw [hspec_other kg.1 hkgne]
              exact hspec0
          have hK' : ∀ pr ∈ done ++ [(p, t)],
              ∃ g2, (ext pr.2, g2) ∈ btreeInsert (ext t) (btreeInsert p t g) acc1 := by
            intro pr hpr
            rcases List.mem_append.1 hpr with hpr1 | hpr1
            · obtain ⟨g0, hg0⟩ := hK pr hpr1
              by_cases hkey : ext pr.2 = ext t
              · refine ⟨btreeInsert p t g, (hmem' _).2 (Or.inl ?_)⟩
                rw [hkey]
              · exact ⟨g0, (hmem' _).2 (Or.inr ⟨(hacc1_mem _).2 ⟨hg0, hkey⟩, hkey⟩)⟩
            · rw [List.mem_singleton] at hpr1
              subst hpr1
              exact ⟨btreeInsert p t g, (hmem' _).2 (Or.inl rfl)⟩
          obtain ⟨r, hr, hok, herr⟩ := ih (done ++ [(p, t)]) _ hsm' hS' hG' hK'
          refine ⟨r, hr, ?_, ?_⟩
          · intro votes hv
            obtain ⟨h1, h2, h3⟩ := hok votes hv
            rw [List.append_assoc, List.singleton_append] at h2 h3
            exact ⟨h1, h2, h3⟩
          · intro payload hp
            obtain ⟨h1, k, h2, h3⟩ := herr payload hp
            refine ⟨h1, k, ?_, h3⟩
            intro pp ee hee
            obtain ⟨v, hv1, hv2, hv3⟩ := h2 pp ee hee
            rw [List.append_assoc, List.singleton_append] at hv2
            exact ⟨v, hv1, hv2, hv3⟩
        · rw [group_loop_cons_conflict ext p t rest1 acc g acc1 q w hrem hlastqw hconf]
          have hg_sorted : SortedKeys g := by
            rw [hgspec2, specGroup]
            exact List.Pairwise.sublist (List.filter_sublist _) hdone_sorted
          have happ_sorted : SortedKeys (g ++ [(p, t)]) := by
            rw [SortedKeys, List.pairwise_append]
            refine ⟨hg_sorted, List.pairwise_singleton _ _, ?_⟩
            intro a ha b hb
            rw [List.mem_singleton] at hb
            subst hb
            exact hdone_lt a (hg_sub_done a ha)
          have hmap_sorted : SortedKeys ((g ++ [(p, t)]).map
              (fun pr => (pr.1, (Except.ok pr.2 : Except RpcError T)))) := by
            rw [SortedKeys, List.pairwise_map]
            exact happ_sorted
          obtain ⟨hfrom_eq, -⟩ := from_non_empty_iter_of_ne_nil
            (l := (g ++ [(p, t)]).map (fun pr => (pr.1, (Except.ok pr.2 : Except RpcError T))))
            (by simp)
          rw [btreeFromIter_of_sorted hmap_sorted] at hfrom_eq
          rw [hfrom_eq]
          refine ⟨Except.error ⟨(g ++ [(p, t)]).map
            (fun pr => (pr.1, Except.ok pr.2))⟩, rfl, ?_, ?_⟩
          · intro votes hv
            exact absurd hv (by simp)
          · intro payload hp
            injection hp with hp
            rw [← hp]
            refine ⟨by simp, ext t, ?_, ?_⟩
            · intro pp ee hee
              rw [List.mem_map] at hee
              obtain ⟨x, hx, hxe⟩ := hee
              have hpp : x.1 = pp := congrArg Prod.fst hxe
              refine ⟨x.2, (congrArg Prod.snd hxe).symm, ?_, ?_⟩
              · rw [← hpp]
                rcases List.mem_append.1 hx with hx1 | hx1
                · exact List.mem_append_left _ (hg_sub_done x hx1)
                · rw [List.mem_singleton] at hx1
                  rw [hx1]
                  exact List.mem_append_right _ (List.mem_cons_self _ _)
              · rcases List.mem_append.1 hx with hx1 | hx1
                · rw [hgspec2, specGroup, List.mem_filter] at hx1
                  simpa using hx1.2
                · rw [List.mem_singleton] at hx1
                  rw [hx1]
            · refine ⟨q, w, p, t, ?_, ?_, fun hc => hconf hc.symm⟩
              · rw [List.mem_map]
                exact ⟨(q, w), List.mem_append_left _ hweq, rfl⟩
              · rw [List.mem_map]
                exact ⟨(p, t), List.mem_append_right _ (List.mem_singleton.2 rfl), rfl⟩
      | none =>
        have hacc1_eq : acc1 = acc := by
          have h0 : (btreeRemove (ext t) acc).1 = none := by rw [hrem]
          have h1 := btreeRemove_snd_of_fst_none h0
          rw [hrem] at h1
          exact h1
        have hnotin : ext t ∉ acc.map Prod.fst := by
          apply btreeRemove_fst_eq_none_iff.1
          rw [hrem]
        rw [group_loop_cons_new ext p t rest1 acc acc1 hrem, hacc1_eq]
        have hS' : SortedKeys (btreeInsert (ext t) [(p, t)] acc) :=
          sortedKeys_btreeInsert hS
        have hmem' : ∀ x : K × List (P × T), x ∈ btreeInsert (ext t) [(p, t)] acc ↔
            x = (ext t, [(p, t)]) ∨ (x ∈ acc ∧ x.1 ≠ ext t) :=
          fun x => mem_btreeInsert hS
        have hdone_empty : specGroup ext done (ext t) = [] := by
          rw [specGroup, List.filter_eq_nil_iff]
          intro pr hpr hc
          obtain ⟨g0, hg0⟩ := hK pr hpr
          apply hnotin
          have hkey : ext pr.2 = ext t := by simpa using hc
          rw [← hkey]
          exact List.mem_map_of_mem Prod.fst hg0
        have hG' : ∀ kg ∈ btreeInsert (ext t) [(p, t)] acc,
            kg.2 = specGroup ext (done ++ [(p, t)]) kg.1 ∧ kg.2 ≠ [] ∧
            (∀ q1 ∈ kg.2, ∀ q2 ∈ kg.2, q1.2 = q2.2) := by
          intro kg hkg
          rcases (hmem' kg).1 hkg with hkg1 | ⟨hkg1, hkgne⟩
          · subst hkg1
            refine ⟨?_, by simp, ?_⟩
            · show [(p, t)] = specGroup ext (done ++ [(p, t)]) (ext t)
              rw [hspec_k, hdone_empty, List.nil_append]
            · intro q1 hq1 q2 hq2
              rw [List.mem_singleton] at hq1 hq2
              rw [hq1, hq2]
          · obtain ⟨hspec0, hne0, heq0⟩ := hG kg hkg1
            refine ⟨?_, hne0, heq0⟩
            rw [hspec_other kg.1 hkgne]
            exact hspec0
        have hK' : ∀ pr ∈ done ++ [(p, t)],
            ∃ g2, (ext pr.2, g2) ∈ btreeInsert (ext t) [(p, t)] acc := by
          intro pr hpr
          rcases List.mem_append.1 hpr with hpr1 | hpr1
          · obtain ⟨g0, hg0⟩ := hK pr hpr1
            have hkey : ext pr.2 ≠ ext t := by
              intro hc
              apply hnotin
              rw [← hc]
              exact List.mem_map_of_mem Prod.fst hg0
            exact ⟨g0, (hmem' _).2 (Or.inr ⟨hg0, hkey⟩)⟩
          · rw [List.mem_singleton] at hpr1
            subst hpr1
            exact ⟨[(p, t)], (hmem' _).2 (Or.inl rfl)⟩
        obtain ⟨r, hr, hok, herr⟩ := ih (done ++ [(p, t)]) _ hsm' hS' hG' hK'
        refine ⟨r, hr, ?_, ?_⟩
        · intro votes hv
          obtain ⟨h1, h2, h3⟩ := hok votes hv
          rw [List.append_assoc, List.singleton_append] at h2 h3
          exact ⟨h1, h2, h3⟩
        · intro payload hp
          obtain ⟨h1, k, h2, h3⟩ := herr payload hp
          refine ⟨h1, k, ?_, h3⟩
          intro pp ee hee
          obtain ⟨v, hv1, hv2, hv3⟩ := h2 pp ee hee
          rw [List.append_assoc, List.singleton_append] at hv2
          exact ⟨v, hv1, hv2, hv3⟩

theorem sortedKeys_assoc_unique {K1 V1 : Type} [LinearOrder K1]
    {l : List (K1 × V1)} (h : SortedKeys l) {k : K1} {a b : V1}
    (ha : (k, a) ∈ l) (hb : (k, b) ∈ l) : a = b := by
  induction l with
  | nil => simp at ha
  | cons x rest ih =>
    obtain ⟨hx, hrest⟩ := sortedKeys_cons_iff.1 h
    rcases List.mem_cons.1 ha with ha1 | ha1 <;> rcases List.mem_cons.1 hb with hb1 | hb1
    · have h1 : a = x.2 := congrArg Prod.snd ha1
      have h2 : b = x.2 := congrArg Prod.snd hb1
      rw [h1, h2]
    · exfalso
      have h1 : x.1 = k := (congrArg Prod.fst ha1).symm
      have h2 := hx (k, b) hb1
      rw [h1] at h2
      exact lt_irrefl k h2
    · exfalso
      have h1 : x.1 = k := (congrArg Prod.fst hb1).symm
      have h2 := hx (k, a) ha1
      rw [h1] at h2
      exact lt_irrefl k h2
    · exact ih hrest ha1 hb1

theorem pairwise_rel_getLast {α : Type} {R : α → α → Prop} {l : List α}
    (hl : l ≠ []) (hp : l.Pairwise R) :
    ∀ x ∈ l.dropLast, R x (l.getLast hl) := by
  have hsplit := List.dropLast_append_getLast hl
  have hp2 : List.Pairwise R (l.dropLast ++ [l.getLast hl]) := by
    rw [hsplit]
    exact hp
  rw [List.pairwise_append] at hp2
  intro x hx
  exact hp2.2.2 x hx _ (List.mem_singleton.2 rfl)

theorem mem_dropLast_or_getLast {α : Type} {l : List α} (hl : l ≠ []) {x : α}
    (hx : x ∈ l) : x ∈ l.dropLast ∨ x = l.getLast hl := by
  have hsplit := List.dropLast_append_getLast hl
  rw [← hsplit] at hx
  rcases List.mem_append.1 hx with h | h
  · exact Or.inl h
  · exact Or.inr (List.mem_singleton.1 h)

theorem getLast_not_mem_dropLast {α : Type} {l : List α} (hl : l ≠ [])
    (hnd : l.Nodup) : l.getLast hl ∉ l.dropLast := by
  have hsplit := List.dropLast_append_getLast hl
  have hnd2 : (l.dropLast ++ [l.getLast hl]).Nodup := by
    rw [hsplit]
    exact hnd
  rw [List.nodup_append] at hnd2
  intro hc
  exact hnd2.2.2 hc (List.mem_singleton.2 rfl)

theorem sortTally_perm (tally : List (K × List (P × T))) :
    List.Perm (sortTally (P := P) (K := K) (T := T) tally) tally :=
  List.perm_insertionSort _ _

theorem sortTally_sorted (tally : List (K × List (P × T))) :
    List.Pairwise (fun a b : K × List (P × T) => a.2.length ≤ b.2.length)
      (sortTally tally) := by
  haveI h1 : IsTotal (K × List (P × T))
      (fun a b => a.2.length ≤ b.2.length) := ⟨fun a b => Nat.le_total _ _⟩
  haveI h2 : IsTrans (K × List (P × T))
      (fun a b => a.2.length ≤ b.2.length) := ⟨fun a b c => Nat.le_trans⟩
  exact List.sorted_insertionSort _ _

theorem sorted_len_le_getLast {l : List (K × List (P × T))} (hl : l ≠ [])
    (hs : List.Pairwise (fun a b : K × List (P × T) =>
      a.2.length ≤ b.2.length) l) :
    ∀ x ∈ l, x.2.length ≤ (l.getLast hl).2.length := by
  intro x hx
  rcases mem_dropLast_or_getLast hl hx with h | h
  · exact pairwise_rel_getLast hl hs x h
  · rw [h]

theorem expectAllOk_some_imp {l : List (P × Except RpcError T)}
    {m : List (P × T)} (h : expectAllOk l = some m) :
    (∀ pr ∈ l, ∃ v, pr.2 = Except.ok v) ∧ m = okEntries l := by
  induction l generalizing m with
  | nil =>
    injection h with h
    refine ⟨by simp, ?_⟩
    rw [← h]
    rfl
  | cons a rest ih =>
    obtain ⟨p, r⟩ := a
    cases r with
    | error e => exact absurd h (by simp [expectAllOk])
    | ok w =>
      rw [expectAllOk] at h
      cases hrest : expectAllOk rest with
      | none => rw [hrest] at h; simp at h
      | some m1 =>
        rw [hrest] at h
        simp only [Option.map_some', Option.some.injEq] at h
        obtain ⟨h1, h2⟩ := ih hrest
        constructor
        · intro pr hpr
          rcases List.mem_cons.1 hpr with hpr1 | hpr1
          · exact ⟨w, by rw [hpr1]⟩
          · exact h1 pr hpr1
        · rw [← h, okEntries, h2]

/-- Evaluation of `reduce_with_strict_majority_by_key` when the grouping
loop early-returns an inconsistency payload. -/
theorem reduce_majority_eval_error (ext : T → K) (mc : MultiCallResults P T)
    (hall : ∀ pr ∈ mc.results, ∃ v, pr.2 = Except.ok v)
    {payload : MultiCallResults P T}
    (hloop : group_by_key_loop ext (okEntries mc.results) [] =
      some (Except.error payload)) :
    reduce_with_strict_majority_by_key ext mc =
      some (Except.error (MultiCallError.InconsistentResults payload)) := by
  rw [reduce_with_strict_majority_by_key, all_ok_of_all_entries_ok mc hall,
    Option.some_bind]
  show (group_by_key_loop ext (okEntries mc.results) []).bind _ = _
  simp only [hloop, Option.some_bind]

/-- Evaluation of `reduce_with_strict_majority_by_key` when the tally has a
single group: the value of its largest provider is returned. -/
theorem reduce_majority_eval_single (ext : T → K) (mc : MultiCallResults P T)
    (hall : ∀ pr ∈ mc.results, ∃ v, pr.2 = Except.ok v)
    {votes : List (K × List (P × T))} {single : K × List (P × T)}
    {last : P × T}
    (hloop : group_by_key_loop ext (okEntries mc.results) [] =
      some (Except.ok votes))
    (htal : sortTally votes = [single])
    (hlast : single.2.getLast? = some last) :
    reduce_with_strict_majority_by_key ext mc = some (Except.ok last.2) := by
  rw [reduce_with_strict_majority_by_key, all_ok_of_all_entries_ok mc hall,
    Option.some_bind]
  show (group_by_key_loop ext (okEntries mc.results) []).bind _ = _
  simp only [hloop, Option.some_bind, htal, hlast]

/-- Evaluation of `reduce_with_strict_majority_by_key` when the sorted tally
has at least two groups and the largest is strictly larger than the
runner-up. -/
theorem reduce_majority_eval_winner (ext : T → K) (mc : MultiCallResults P T)
    (hall : ∀ pr ∈ mc.results, ∃ v, pr.2 = Except.ok v)
    {votes : List (K × List (P × T))} {a b : K × List (P × T)}
    {tl : List (K × List (P × T))} {first second : K × List (P × T)}
    {last : P × T}
    (hloop : group_by_key_loop ext (okEntries mc.results) [] =
      some (Except.ok votes))
    (htal : sortTally votes = a :: b :: tl)
    (hfirst : (a :: b :: tl).getLast? = some first)
    (hsecond : (a :: b :: tl).dropLast.getLast? = some second)
    (hgt : first.2.length > second.2.length)
    (hlast : first.2.getLast? = some last) :
    reduce_with_strict_majority_by_key ext mc = some (Except.ok last.2) := by
  rw [reduce_with_strict_majority_by_key, all_ok_of_all_entries_ok mc hall,
    Option.some_bind]
  show (group_by_key_loop ext (okEntries mc.results) []).bind _ = _
  simp only [hloop, Option.some_bind, htal, hfirst, hsecond]
  rw [if_pos hgt]
  simp only [hlast]

/-- Evaluation of `reduce_with_strict_majority_by_key` when the sorted tally
has at least two groups and the two largest tie: the two top groups are
merged into an `InconsistentResults`. -/
theorem reduce_majority_eval_tie (ext : T → K) (mc : MultiCallResults P T)
    (hall : ∀ pr ∈ mc.results, ∃ v, pr.2 = Except.ok v)
    {votes : List (K × List (P × T))} {a b : K × List (P × T)}
    {tl : List (K × List (P × T))} {first second : K × List (P × T)}
    {payload : MultiCallResults P T}
    (hloop : group_by_key_loop ext (okEntries mc.results) [] =
      some (Except.ok votes))
    (htal : sortTally votes = a :: b :: tl)
    (hfirst : (a :: b :: tl).getLast? = some first)
    (hsecond : (a :: b :: tl).dropLast.getLast? = some second)
    (hng : ¬(first.2.length > second.2.length))
    (hfrom : from_non_empty_iter ((first.2 ++ second.2).map
      (fun pr => (pr.1, (Except.ok pr.2 : Except RpcError T)))) = some payload) :
    reduce_with_strict_majority_by_key ext mc =
      some (Except.error (MultiCallError.InconsistentResults payload)) := by
  rw [reduce_with_strict_majority_by_key, all_ok_of_all_entries_ok mc hall,
    Option.some_bind]
  show (group_by_key_loop ext (okEntries mc.results) []).bind _ = _
  simp only [hloop, Option.some_bind, htal, hfirst, hsecond]
  rw [if_neg hng]
  simp only [hfrom]

/-- `reduce_with_strict_majority_by_key` never hits a panic on a well-formed
non-empty input, and every inconsistency payload it reports is non-empty. -/
theorem reduce_majority_shape (ext : T → K) (mc : MultiCallResults P T)
    (hsorted : SortedKeys mc.results) (hne : mc.results ≠ []) :
    reduce_with_strict_majority_by_key ext mc ≠ none ∧
    ∀ r0 : MultiCallResults P T,
      reduce_with_strict_majority_by_key ext mc =
        some (Except.error (MultiCallError.InconsistentResults r0)) →
      r0.results ≠ [] := by
  cases hao : all_ok mc with
  | none => exact absurd hao (all_ok_ne_none mc)
  | some s =>
    cases s with
    | error e =>
      have hred : reduce_with_strict_majority_by_key ext mc =
          some (Except.error e) := by
        rw [reduce_with_strict_majority_by_key, hao, Option.some_bind]
      constructor
      · rw [hred]
        simp
      · intro r0 h0
        rw [hred] at h0
        have h1 : e = MultiCallError.InconsistentResults r0 := by
          injection h0 with h0
          injection h0 with h0
        rw [h1] at hao
        have h2 := all_ok_inconsistent_eq_self mc hao
        rw [h2]
        exact hne
    | ok m =>
      obtain ⟨hall, hm⟩ := expectAllOk_some_imp (all_ok_ok_shape mc hao)
      subst hm
      have hmsorted : SortedKeys (([] : List (P × T)) ++ okEntries mc.results) := by
        simp only [List.nil_append]
        exact sortedKeys_okEntries hsorted
      obtain ⟨r, hloop, hok, herr⟩ := group_loop_main ext (okEntries mc.results) [] []
        hmsorted List.Pairwise.nil (by simp) (by simp)
      cases r with
      | error payload =>
        obtain ⟨hpne, -⟩ := herr payload rfl
        have hred := reduce_majority_eval_error ext mc hall hloop
        constructor
        · rw [hred]
          simp
        · intro r0 h0
          rw [hred] at h0
          have h1 : payload = r0 := by
            injection h0 with h0
            injection h0 with h0
            injection h0 with h0
          rw [← h1]
          exact hpne
      | ok votes =>
        obtain ⟨hvS, hvG, hvK⟩ := hok votes rfl
        simp only [List.nil_append] at hvG hvK
        have hmne : okEntries mc.results ≠ [] := by
          have hlen := okEntries_length_of_all_ok hall
          intro hc
          rw [hc] at hlen
          exact hne (List.length_eq_zero.1 hlen.symm)
        have hvne : votes ≠ [] := by
          obtain ⟨pr0, hpr0⟩ := List.exists_mem_of_ne_nil _ hmne
          obtain ⟨g0, hg0⟩ := hvK pr0 hpr0
          intro hc
          rw [hc] at hg0
          simp at hg0
        have htmem : ∀ x ∈ sortTally votes, x ∈ votes := fun x hx =>
          (sortTally_perm votes).mem_iff.1 hx
        cases htal : sortTally votes with
        | nil =>
          exfalso
          have hperm := sortTally_perm votes
          rw [htal] at hperm
          exact hvne hperm.symm.eq_nil
        | cons a tl =>
          cases tl with
          | nil =>
            have ha : a ∈ votes := htmem a (by rw [htal]; exact List.mem_cons_self _ _)
            obtain ⟨-, hane, -⟩ := hvG a ha
            have hlast := List.getLast?_eq_getLast a.2 hane
            have hred := reduce_majority_eval_single ext mc hall hloop htal hlast
            constructor
            · rw [hred]
              simp
            · intro r0 h0
              rw [hred] at h0
              simp at h0
          | cons b tl2 =>
            have htne : (a :: b :: tl2 : List (K × List (P × T))) ≠ [] := by simp
            have hfirst := List.getLast?_eq_getLast (a :: b :: tl2) htne
            have hdne : (a :: b :: tl2).dropLast ≠
                ([] : List (K × List (P × T))) := by
              intro hc
              have hlc := congrArg List.length hc
              rw [List.length_dropLast] at hlc
              simp at hlc
            have hsecond := List.getLast?_eq_getLast ((a :: b :: tl2).dropLast) hdne
            have hfmem : (a :: b :: tl2).getLast htne ∈ votes :=
              htmem _ (by rw [htal]; exact List.getLast_mem htne)
            obtain ⟨-, hfne, -⟩ := hvG _ hfmem
            by_cases hgt : ((a :: b :: tl2).getLast htne).2.length >
                (((a :: b :: tl2).dropLast).getLast hdne).2.length
            · have hlast := List.getLast?_eq_getLast _ hfne
              have hred := reduce_majority_eval_winner ext mc hall hloop htal
                hfirst hsecond hgt hlast
              constructor
              · rw [hred]
                simp
              · intro r0 h0
                rw [hred] at h0
                simp at h0
            · have hargne : ((((a :: b :: tl2).getLast htne).2 ++
                  (((a :: b :: tl2).dropLast).getLast hdne).2).map
                  (fun pr => (pr.1, (Except.ok pr.2 : Except RpcError T)))) ≠ [] := by
                simp only [ne_eq, List.map_eq_nil_iff, List.append_eq_nil]
                intro hc
                exact hfne hc.1
              obtain ⟨hfrom, hfromne⟩ := from_non_empty_iter_of_ne_nil hargne
              have hred := reduce_majority_eval_tie ext mc hall hloop htal
                hfirst hsecond hgt hfrom
              constructor
              · rw [hred]
                simp
              · intro r0 h0
                rw [hred] at h0
                have h1 : (⟨btreeFromIter ((((a :: b :: tl2).getLast htne).2 ++
                    (((a :: b :: tl2).dropLast).getLast hdne).2).map
                    (fun pr => (pr.1, Except.ok pr.2)))⟩ : MultiCallResults P T) = r0 := by
                  injection h0 with h0
                  injection h0 with h0
                  injection h0 with h0
                rw [← h1]
                exact hfromne

theorem sortedKeys_specGroup {m : List (P × T)} (hm : SortedKeys m)
    (ext : T → K) (k : K) : SortedKeys (specGroup ext m k) :=
  List.Pairwise.sublist (List.filter_sublist _) hm

theorem mem_btreeFromIter_append {K1 V1 : Type} [LinearOrder K1]
    {A B : List (K1 × V1)} (hA : SortedKeys A)
    (hBnd : (B.map Prod.fst).Nodup)
    (hdisj : ∀ e ∈ B, e.1 ∉ A.map Prod.fst) {x : K1 × V1} :
    x ∈ btreeFromIter (A ++ B) ↔ x ∈ A ∨ x ∈ B := by
  rw [btreeFromIter, List.foldl_append]
  have h1 : A.foldl (fun m kv => btreeInsert kv.1 kv.2 m) [] = A := by
    have h2 := btreeFromIter_of_sorted hA
    rw [btreeFromIter] at h2
    exact h2
  rw [h1]
  exact mem_foldl_btreeInsert B A hA hBnd hdisj

/-- On an all-ok input whose values are determined by their projection key,
the grouping loop completes with a correct `votes_by_key`. -/
theorem majority_votes_facts (ext : T → K) (mc : MultiCallResults P T)
    (hsorted : SortedKeys mc.results)
    (hall : ∀ pr ∈ mc.results, ∃ v, pr.2 = Except.ok v)
    (heqk : ∀ p1 v1 p2 v2, (p1, Except.ok v1) ∈ mc.results →
      (p2, Except.ok v2) ∈ mc.results → ext v1 = ext v2 → v1 = v2) :
    ∃ votes : List (K × List (P × T)),
      group_by_key_loop ext (okEntries mc.results) [] = some (Except.ok votes) ∧
      SortedKeys votes ∧
      (∀ kg ∈ votes, kg.2 = specGroup ext (okEntries mc.results) kg.1 ∧
        kg.2 ≠ []) ∧
      (∀ pr ∈ okEntries mc.results, ∃ g, (ext pr.2, g) ∈ votes) := by
  have hmsorted : SortedKeys (([] : List (P × T)) ++ okEntries mc.results) := by
    simpa using sortedKeys_okEntries hsorted
  obtain ⟨r, hloop, hok, herr⟩ := group_loop_main ext (okEntries mc.results) [] []
    hmsorted List.Pairwise.nil (by simp) (by simp)
  cases r with
  | error payload =>
    exfalso
    obtain ⟨-, k, hprops, p1, v1, p2, v2, h1, h2, hvne⟩ := herr payload rfl
    obtain ⟨u1, hu1, hm1, hk1⟩ := hprops p1 (Except.ok v1) h1
    obtain ⟨u2, hu2, hm2, hk2⟩ := hprops p2 (Except.ok v2) h2
    have e1 : v1 = u1 := by injection hu1
    have e2 : v2 = u2 := by injection hu2
    rw [List.nil_append] at hm1 hm2
    subst e1
    subst e2
    apply hvne
    exact heqk p1 v1 p2 v2 (mem_okEntries.1 hm1) (mem_okEntries.1 hm2)
      (hk1.trans hk2.symm)
  | ok votes =>
    obtain ⟨hvS, hvG, hvK⟩ := hok votes rfl
    simp only [List.nil_append] at hvG hvK
    exact ⟨votes, hloop, hvS,
      fun kg h => ⟨(hvG kg h).1, (hvG kg h).2.1⟩, hvK⟩

/-- The final `votes_by_key` determines its entries by key: a key occurs in
the input exactly when its group is an entry, and every entry is its key
paired with that key's group. -/
theorem votes_key_facts (ext : T → K) (m : List (P × T))
    {votes : List (K × List (P × T))}
    (hvG : ∀ kg ∈ votes, kg.2 = specGroup ext m kg.1 ∧ kg.2 ≠ [])
    (hvK : ∀ pr ∈ m, ∃ g, (ext pr.2, g) ∈ votes) :
    (∀ k1, k1 ∈ keysOf ext m ↔ (k1, specGroup ext m k1) ∈ votes) ∧
    (∀ kg ∈ votes, kg = (kg.1, specGroup ext m kg.1)) := by
  have hshape : ∀ kg ∈ votes, kg = (kg.1, specGroup ext m kg.1) := by
    intro kg h
    obtain ⟨k1, g1⟩ := kg
    have h1 : g1 = specGroup ext m k1 := (hvG (k1, g1) h).1
    rw [h1]
  refine ⟨?_, hshape⟩
  intro k1
  constructor
  · intro hk
    rw [keysOf, List.mem_map] at hk
    obtain ⟨pr, hpr, hprk⟩ := hk
    obtain ⟨g, hg⟩ := hvK pr hpr
    have h2 := hshape _ hg
    rw [h2] at hg
    rw [← hprk]
    exact hg
  · intro hv
    have h1 : specGroup ext m k1 ≠ [] := (hvG _ hv).2
    obtain ⟨pr, hpr⟩ := List.exists_mem_of_ne_nil _ h1
    rw [specGroup, List.mem_filter] at hpr
    rw [keysOf, List.mem_map]
    exact ⟨pr, hpr.1, by simpa using hpr.2⟩

/-- Top of the sorted tally when it has at least two entries: the last entry
bounds every ballot, the penultimate entry bounds every other ballot. -/
theorem tally_top_facts {votes : List (K × List (P × T))}
    (hvS : SortedKeys votes) {a b : K × List (P × T)}
    {tl2 : List (K × List (P × T))}
    (htal : sortTally votes = a :: b :: tl2) :
    ∃ first second : K × List (P × T),
      (a :: b :: tl2).getLast? = some first ∧
      (a :: b :: tl2).dropLast.getLast? = some second ∧
      first ∈ votes ∧ second ∈ votes ∧ second ≠ first ∧
      (∀ x ∈ votes, x.2.length ≤ first.2.length) ∧
      (∀ x ∈ votes, x ≠ first → x.2.length ≤ second.2.length) := by
  have htne : (a :: b :: tl2 : List (K × List (P × T))) ≠ [] := by simp
  have hdne : (a :: b :: tl2).dropLast ≠ ([] : List (K × List (P × T))) := by
    intro hc
    have hlc := congrArg List.length hc
    rw [List.length_dropLast] at hlc
    simp at hlc
  have htsorted2 : List.Pairwise
      (fun x y : K × List (P × T) => x.2.length ≤ y.2.length) (a :: b :: tl2) := by
    have h0 := sortTally_sorted votes
    rw [htal] at h0
    exact h0
  have htmem2 : ∀ x ∈ (a :: b :: tl2 : List (K × List (P × T))), x ∈ votes := by
    intro x hx
    apply (sortTally_perm votes).mem_iff.1
    rw [htal]
    exact hx
  have htonto : ∀ x ∈ votes, x ∈ (a :: b :: tl2 : List (K × List (P × T))) := by
    intro x hx
    have h0 := (sortTally_perm votes).mem_iff.2 hx
    rw [htal] at h0
    exact h0
  have hvnodup : votes.Nodup :=
    List.Pairwise.imp (fun hab => fun he => absurd (he ▸ hab) (lt_irrefl _)) hvS
  have htnodup : (a :: b :: tl2 : List (K × List (P × T))).Nodup := by
    have h0 := (sortTally_perm votes).nodup_iff.2 hvnodup
    rw [htal] at h0
    exact h0
  refine ⟨(a :: b :: tl2).getLast htne, ((a :: b :: tl2).dropLast).getLast hdne,
    List.getLast?_eq_getLast _ htne, List.getLast?_eq_getLast _ hdne,
    htmem2 _ (List.getLast_mem htne),
    htmem2 _ ((List.dropLast_sublist (a :: b :: tl2)).subset (List.getLast_mem hdne)),
    ?_, ?_, ?_⟩
  · intro hc
    have hnotin := getLast_not_mem_dropLast htne htnodup
    apply hnotin
    rw [← hc]
    exact List.getLast_mem hdne
  · intro x hx
    exact sorted_len_le_getLast htne htsorted2 x (htonto x hx)
  · intro x hx hxne
    rcases mem_dropLast_or_getLast htne (htonto x hx) with h1 | h1
    · have hdl_sorted : List.Pairwise
          (fun x y : K × List (P × T) => x.2.length ≤ y.2.length)
          ((a :: b :: tl2).dropLast) :=
        List.Pairwise.sublist (List.dropLast_sublist _) htsorted2
      exact sorted_len_le_getLast hdne hdl_sorted x h1
    · exact absurd h1 hxne

end MajorityLemmas

/-! ### Claim theorems -/

/-- C1: for a non-empty all-ok `MultiCallResults`, `reduce_with_equality`
takes the entry of the smallest provider as the baseline; it returns the
baseline value when every other value structurally equals it, and otherwise
an `InconsistentResults` whose payload holds exactly the ok-wrapped entries
whose values differ from the baseline plus the baseline entry itself. -/
theorem C1_reduce_with_equality_baseline {P T : Type} [LinearOrder P]
    [DecidableEq T] (mc : MultiCallResults P T) (p0 : P) (v0 : T)
    (rest : List (P × Except RpcError T))
    (hres : mc.results = (p0, Except.ok v0) :: rest)
    (hsorted : SortedKeys mc.results)
    (hall : ∀ pr ∈ mc.results, ∃ v, pr.2 = Except.ok v) :
    (∀ y ∈ mc.results, p0 ≤ y.1) ∧
    ((∀ pr ∈ mc.results, pr.2 = Except.ok v0) →
      reduce_with_equality mc = some (Except.ok v0)) ∧
    ((∃ pr ∈ mc.results, pr.2 ≠ Except.ok v0) →
      ∃ payload : MultiCallResults P T,
        reduce_with_equality mc =
          some (Except.error (MultiCallError.InconsistentResults payload)) ∧
        ∀ p e, ((p, e) ∈ payload.results ↔
          ∃ v, e = Except.ok v ∧ (p, Except.ok v) ∈ mc.results ∧
            (v ≠ v0 ∨ p = p0))) := by
  have hhead : ∀ y ∈ rest, p0 < y.1 := by
    rw [hres] at hsorted
    exact (sortedKeys_cons_iff.1 hsorted).1
  refine ⟨?_, ?_, ?_⟩
  · intro y hy
    rw [hres] at hy
    rcases List.mem_cons.1 hy with hy | hy
    · rw [hy]
    · exact le_of_lt (hhead y hy)
  · intro hagree
    apply reduce_with_equality_of_consistent mc hres hall
    intro pr hpr
    obtain ⟨a, b⟩ := pr
    have hm : (a, Except.ok b) ∈ rest := mem_okEntries.1 hpr
    have h2 := hagree (a, Except.ok b) (by rw [hres]; exact List.mem_cons_of_mem _ hm)
    injection h2 with h3
  · intro hdis
    have hdis2 : ∃ pr ∈ okEntries rest, pr.2 ≠ v0 := by
      obtain ⟨pr, hpr, hprne⟩ := hdis
      rw [hres] at hpr
      rcases List.mem_cons.1 hpr with hpr1 | hpr1
      · exact absurd (by rw [hpr1]) hprne
      · obtain ⟨v, hv⟩ := hall pr (by rw [hres]; exact List.mem_cons_of_mem _ hpr1)
        refine ⟨(pr.1, v), ?_, ?_⟩
        · apply mem_okEntries.2
          rw [← hv]
          exact hpr1
        · intro hc
          apply hprne
          have hc2 : v = v0 := hc
          rw [hv, hc2]
    have heq := reduce_with_equality_of_dissent mc hres hsorted hall hdis2
    refine ⟨_, heq, ?_⟩
    intro p e
    constructor
    · intro hmem
      rcases List.mem_cons.1 hmem with hmem1 | hmem1
      · have hp : p = p0 := congrArg Prod.fst hmem1
        have he : e = Except.ok v0 := congrArg Prod.snd hmem1
        exact ⟨v0, he, by rw [hp, hres]; exact List.mem_cons_self _ _, Or.inr hp⟩
      · rw [List.mem_map] at hmem1
        obtain ⟨q, hq, hqe⟩ := hmem1
        rw [List.mem_filter] at hq
        have hv : (q.1, Except.ok q.2) ∈ rest := by
          apply mem_okEntries.1
          obtain ⟨a, b⟩ := q
          exact hq.1
        refine ⟨q.2, (congrArg Prod.snd hqe).symm, ?_, Or.inl ?_⟩
        · have hp : q.1 = p := congrArg Prod.fst hqe
          rw [← hp, hres]
          exact List.mem_cons_of_mem _ hv
        · simpa using hq.2
    · rintro ⟨v, he, hmem, hor⟩
      rw [hres] at hmem
      rcases List.mem_cons.1 hmem with hmem1 | hmem1
      · have hp : p = p0 := congrArg Prod.fst hmem1
        have hv : v = v0 := by
          have h2 := congrArg Prod.snd hmem1
          injection h2
        rw [he, hp, hv]
        exact List.mem_cons_self _ _
      · have hpgt : p0 < p := hhead (p, Except.ok v) hmem1
        have hvne : v ≠ v0 := by
          rcases hor with h1 | h1
          · exact h1
          · exact absurd (h1 ▸ hpgt) (lt_irrefl _)
        apply List.mem_cons_of_mem
        rw [List.mem_map]
        refine ⟨(p, v), ?_, by rw [he]⟩
        rw [List.mem_filter]
        exact ⟨mem_okEntries.2 hmem1, by simpa using hvne⟩

/-- Witness for C1 at the concrete ballot `{0 : ok 7, 1 : ok 8, 2 : ok 7}`. -/
theorem C1_witness :
    ∃ payload : MultiCallResults Nat Nat,
      reduce_with_equality
          (⟨[(0, Except.ok 7), (1, Except.ok 8), (2, Except.ok 7)]⟩ :
            MultiCallResults Nat Nat) =
        some (Except.error (MultiCallError.InconsistentResults payload)) ∧
      ∀ p e, ((p, e) ∈ payload.results ↔
        ∃ v, e = Except.ok v ∧
          (p, Except.ok v) ∈ ([(0, Except.ok 7), (1, Except.ok 8), (2, Except.ok 7)] :
            List (Nat × Except RpcError Nat)) ∧ (v ≠ 7 ∨ p = 0)) :=
  (C1_reduce_with_equality_baseline
      (⟨[(0, Except.ok 7), (1, Except.ok 8), (2, Except.ok 7)]⟩ :
        MultiCallResults Nat Nat) 0 7 [(1, Except.ok 8), (2, Except.ok 7)] rfl
      (by decide)
      (by
        intro pr hpr
        simp only [List.mem_cons, List.not_mem_nil, or_false] at hpr
        rcases hpr with rfl | rfl | rfl <;> exact ⟨_, rfl⟩)).2.2
    ⟨(1, Except.ok 8), by decide, by decide⟩

/-- C2 counterexample: on `{A : ok 7, B : ok 8, C : ok 7}` the payload of the
`InconsistentResults` returned by `reduce_with_equality` is not
`{A : ok 7, B : ok 8, C : ok 7}`: the entry of `C`, which agrees with the
baseline, is dropped. -/
theorem C2_counterexample :
    reduce_with_equality
        (⟨[(0, Except.ok 7), (1, Except.ok 8), (2, Except.ok 7)]⟩ :
          MultiCallResults Nat Nat) ≠
      some (Except.error (MultiCallError.InconsistentResults
        ⟨[(0, Except.ok 7), (1, Except.ok 8), (2, Except.ok 7)]⟩)) := by
  decide

/-- C2 amended: on `{A : ok 7, B : ok 8, C : ok 7}` `reduce_with_equality`
returns `InconsistentResults` whose payload is exactly
`{A : ok 7, B : ok 8}`: the dissenting entry plus the baseline, the agreeing
entry of `C` being omitted. -/
theorem C2_amended :
    reduce_with_equality
        (⟨[(0, Except.ok 7), (1, Except.ok 8), (2, Except.ok 7)]⟩ :
          MultiCallResults Nat Nat) =
      some (Except.error (MultiCallError.InconsistentResults
        ⟨[(0, Except.ok 7), (1, Except.ok 8)]⟩)) := by
  decide

/-- C3: `all_ok` returns the provider-to-value map when no outcome is an
error, `ConsistentError` of the first error when no outcome is ok and every
error is consistent with the first one, and `InconsistentResults` carrying
the whole input when an ok coexists with an error or some error is not
consistent with the first error. -/
theorem C3_all_ok_characterization {P T : Type} [LinearOrder P]
    [DecidableEq T] (mc : MultiCallResults P T)
    (hsorted : SortedKeys mc.results) (hne : mc.results ≠ []) :
    ((∀ pr ∈ mc.results, ∃ v, pr.2 = Except.ok v) →
      all_ok mc = some (Except.ok (okEntries mc.results))) ∧
    (∀ p0 e0 rest, mc.results = (p0, Except.error e0) :: rest →
      (∀ pr ∈ mc.results, ∃ e, pr.2 = Except.error e) →
      (∀ pr ∈ mc.results, ∀ e, pr.2 = Except.error e →
        errors_consistent e0 e = true) →
      all_ok mc = some (Except.error (MultiCallError.ConsistentError e0))) ∧
    ((((∃ pr ∈ mc.results, ∃ v, pr.2 = Except.ok v) ∧
        (∃ pr ∈ mc.results, ∃ e, pr.2 = Except.error e)) ∨
      (∃ pre p0 e0 post, mc.results = pre ++ (p0, Except.error e0) :: post ∧
        (∀ pr ∈ pre, ∃ v, pr.2 = Except.ok v) ∧
        ∃ pr ∈ post, ∃ e, pr.2 = Except.error e ∧
          errors_consistent e0 e = false)) →
      all_ok mc = some (Except.error (MultiCallError.InconsistentResults mc))) := by
  refine ⟨all_ok_of_all_entries_ok mc, ?_, ?_⟩
  · intro p0 e0 rest hres hallerr hcons
    have hcons2 : ∀ pr ∈ rest, ∀ e, pr.2 = Except.error e →
        errors_consistent e0 e = true := by
      intro pr hpr e he
      exact hcons pr (by rw [hres]; exact List.mem_cons_of_mem _ hpr) e he
    obtain ⟨b, heq, hb⟩ := all_ok_loop_consistent rest false p0 e0 hcons2
    have hbf : b = false := by
      cases b with
      | false => rfl
      | true =>
        rcases hb.1 rfl with h1 | ⟨pr, hpr, v, hv⟩
        · exact absurd h1 (by simp)
        · obtain ⟨e, he⟩ := hallerr pr (by rw [hres]; exact List.mem_cons_of_mem _ hpr)
          rw [he] at hv
          exact absurd hv (by simp)
    subst hbf
    rw [all_ok, hres]
    have hstep : all_ok_loop ((p0, Except.error e0) :: rest) false none =
        all_ok_loop rest false (some (p0, Except.error e0)) := rfl
    rw [hstep, heq]
    rfl
  · intro hcase
    rcases hcase with ⟨⟨pok, hpok, v, hv⟩, hex⟩ |
      ⟨pre, p0, e0, post, hsplit, hpreok, pr, hpr, e, he, hce⟩
    · obtain ⟨pre0, q0, f0, post0, hsplit0, hpre0⟩ := exists_first_error_split hex
      rw [all_ok, hsplit0, all_ok_loop_split hpre0]
      by_cases hcons : ∀ pr ∈ post0, ∀ e, pr.2 = Except.error e →
          errors_consistent f0 e = true
      · obtain ⟨b, heq, hb⟩ := all_ok_loop_consistent post0 (false || !pre0.isEmpty)
          q0 f0 hcons
        have hbt : b = true := by
          apply hb.2
          rw [hsplit0] at hpok
          rcases List.mem_append.1 hpok with h1 | h1
          · left
            have hpre0ne : pre0 ≠ [] := by
              intro hc
              rw [hc] at h1
              simp at h1
            simp [hpre0ne]
          · rcases List.mem_cons.1 h1 with h2 | h2
            · rw [h2] at hv
              exact absurd hv (by simp)
            · exact Or.inr ⟨pok, h2, v, hv⟩
        subst hbt
        rw [heq]
        rfl
      · push_neg at hcons
        obtain ⟨pr1, hpr1, e1, he1, hce1⟩ := hcons
        rw [all_ok_loop_inconsistent post0 (false || !pre0.isEmpty) q0 f0
          ⟨pr1, hpr1, e1, he1, by simpa using hce1⟩]
    · rw [all_ok, hsplit, all_ok_loop_split hpreok,
        all_ok_loop_inconsistent post (false || !pre.isEmpty) p0 e0
          ⟨pr, hpr, e, he, hce⟩]

/-- Witness for C3 at the concrete all-error consistent ballot. -/
theorem C3_witness :
    all_ok (⟨[(0, Except.error (RpcError.Transport 0 "a")),
        (1, Except.error (RpcError.Transport 0 "b"))]⟩ :
        MultiCallResults Nat Nat) =
      some (Except.error (MultiCallError.ConsistentError
        (RpcError.Transport 0 "a"))) :=
  (C3_all_ok_characterization
      (⟨[(0, Except.error (RpcError.Transport 0 "a")),
        (1, Except.error (RpcError.Transport 0 "b"))]⟩ : MultiCallResults Nat Nat)
      (by decide) (by decide)).2.1 0 (RpcError.Transport 0 "a")
    [(1, Except.error (RpcError.Transport 0 "b"))] rfl
    (by
      intro pr hpr
      simp only [List.mem_cons, List.not_mem_nil, or_false] at hpr
      rcases hpr with rfl | rfl <;> exact ⟨_, rfl⟩)
    (by
      intro pr hpr e he
      simp only [List.mem_cons, List.not_mem_nil, or_false] at hpr
      rcases hpr with rfl | rfl <;>
        (injection he with he2; subst he2; rfl))

/-- C6: `sequential_call_until_ok` walks the providers in configured order,
short-circuits on the first ok value whatever the outcomes of the remaining
providers would be, and if every provider fails it returns the error of the
last provider. -/
theorem C6_sequential_call_until_ok {P O : Type}
    (calls : List (P × Except RpcError O)) (hne : calls ≠ []) :
    (∀ pre p v post, calls = pre ++ (p, Except.ok v) :: post →
      (∀ pr ∈ pre, ∃ e, pr.2 = Except.error e) →
      sequential_call_until_ok calls = some (Except.ok v)) ∧
    ((∀ pr ∈ calls, ∃ e, pr.2 = Except.error e) →
      sequential_call_until_ok calls = some ((calls.getLast hne).2)) := by
  constructor
  · intro pre p v post hsplit hpre
    rw [sequential_call_until_ok, hsplit]
    exact sequential_call_loop_first_ok pre post p v hpre none
  · intro hall
    rw [sequential_call_until_ok]
    exact sequential_call_loop_all_error calls hne hall none

/-- Witness for C6: three all-failure providers return the last error. -/
theorem C6_witness :
    sequential_call_until_ok (O := Nat)
      [((0 : Nat), Except.error (RpcError.Provider 1)),
       (1, Except.error (RpcError.Provider 2)),
       (2, Except.error (RpcError.Provider 3))] =
      some (Except.error (RpcError.Provider 3)) :=
  (C6_sequential_call_until_ok
      [((0 : Nat), Except.error (RpcError.Provider 1)),
       (1, Except.error (RpcError.Provider 2)),
       (2, Except.error (RpcError.Provider 3))] (by decide)).2
    (by
      intro pr hpr
      simp only [List.mem_cons, List.not_mem_nil, or_false] at hpr
      rcases hpr with rfl | rfl | rfl <;> exact ⟨_, rfl⟩)

/-- C8: the block-size estimate of `eth_get_block_by_number` depends only on
the chain: 12 KiB on Sepolia and 24 KiB on mainnet and any other chain, plus
the header allowance; a config override replaces the per-method estimate. -/
theorem C8_block_size_estimate :
    (∀ hd : Nat, ∀ chain : EthereumNetwork,
      eth_get_block_by_number_estimate chain {} hd =
        ResponseSizeEstimate.new
          ((if chain = EthereumNetwork.SEPOLIA then 12 * 1024 else 24 * 1024) + hd)) ∧
    (∀ o est : Nat,
      response_size_estimate ⟨some o⟩ est = ResponseSizeEstimate.new o) := by
  constructor
  · intro hd chain
    by_cases hc : chain = EthereumNetwork.SEPOLIA
    · simp [eth_get_block_by_number_estimate, expected_block_size,
        response_size_estimate, hc]
    · by_cases hm : chain = EthereumNetwork.MAINNET
      · simp [eth_get_block_by_number_estimate, expected_block_size,
          response_size_estimate, hc, hm]
      · simp [eth_get_block_by_number_estimate, expected_block_size,
          response_size_estimate, hc, hm]
  · intro o est
    rfl

/-- C9: `EthRpcClient::new` fails with `ProviderNotFound` exactly when the
provider list derived from the requested services (defaults substituted) is
empty, and otherwise returns the client with that list, the chain of the
variant and the given or default config. -/
theorem C9_new_characterization (source : RpcServices)
    (config : Option RpcConfig) :
    (EthRpcClient.new source config = Except.error ProviderError.ProviderNotFound ↔
      (chainAndProviders source).2 = []) ∧
    ((chainAndProviders source).2 ≠ [] →
      EthRpcClient.new source config =
        Except.ok ⟨(chainAndProviders source).1, (chainAndProviders source).2,
          config.getD {}⟩) := by
  have hnew : EthRpcClient.new source config =
      (if (chainAndProviders source).2.isEmpty
       then Except.error ProviderError.ProviderNotFound
       else Except.ok ⟨(chainAndProviders source).1, (chainAndProviders source).2,
         config.getD {}⟩) := rfl
  rw [hnew]
  by_cases hc : (chainAndProviders source).2 = []
  · rw [if_pos (by simp [hc])]
    constructor
    · simp [hc]
    · intro h
      exact absurd hc h
  · rw [if_neg (by simpa using hc)]
    constructor
    · constructor
      · intro h
        exact absurd h (by simp)
      · intro h
        exact absurd h hc
    · intro _
      rfl

/-- C4: on a non-empty all-ok ballot grouped by the projection key, with all
values within a group structurally equal, `reduce_with_strict_majority_by_key`
returns ok with a value from the largest group exactly when that group is
strictly larger than every other group (a single group trivially wins); when
exactly two groups tie for the largest size it returns `InconsistentResults`
holding the two top groups merged. -/
theorem C4_strict_majority {P K T : Type} [LinearOrder P] [LinearOrder K]
    [DecidableEq T] (ext : T → K) (mc : MultiCallResults P T)
    (hsorted : SortedKeys mc.results) (hne : mc.results ≠ [])
    (hall : ∀ pr ∈ mc.results, ∃ v, pr.2 = Except.ok v)
    (heqk : ∀ p1 v1 p2 v2, (p1, Except.ok v1) ∈ mc.results →
      (p2, Except.ok v2) ∈ mc.results → ext v1 = ext v2 → v1 = v2) :
    ((∃ k0, k0 ∈ keysOf ext (okEntries mc.results) ∧
        ∀ k1 ∈ keysOf ext (okEntries mc.results), k1 ≠ k0 →
          (specGroup ext (okEntries mc.results) k1).length <
            (specGroup ext (okEntries mc.results) k0).length) →
      ∃ v p k0, reduce_with_strict_majority_by_key ext mc = some (Except.ok v) ∧
        k0 ∈ keysOf ext (okEntries mc.results) ∧
        (∀ k1 ∈ keysOf ext (okEntries mc.results), k1 ≠ k0 →
          (specGroup ext (okEntries mc.results) k1).length <
            (specGroup ext (okEntries mc.results) k0).length) ∧
        (p, v) ∈ specGroup ext (okEntries mc.results) k0) ∧
    (∀ v, reduce_with_strict_majority_by_key ext mc = some (Except.ok v) →
      ∃ k0 p, k0 ∈ keysOf ext (okEntries mc.results) ∧
        (∀ k1 ∈ keysOf ext (okEntries mc.results), k1 ≠ k0 →
          (specGroup ext (okEntries mc.results) k1).length <
            (specGroup ext (okEntries mc.results) k0).length) ∧
        (p, v) ∈ specGroup ext (okEntries mc.results) k0) ∧
    (∀ k1 k2, k1 ∈ keysOf ext (okEntries mc.results) →
      k2 ∈ keysOf ext (okEntries mc.results) → k1 ≠ k2 →
      (specGroup ext (okEntries mc.results) k1).length =
        (specGroup ext (okEntries mc.results) k2).length →
      (∀ k3 ∈ keysOf ext (okEntries mc.results), k3 ≠ k1 → k3 ≠ k2 →
        (specGroup ext (okEntries mc.results) k3).length <
          (specGroup ext (okEntries mc.results) k1).length) →
      ∃ payload, reduce_with_strict_majority_by_key ext mc =
          some (Except.error (MultiCallError.InconsistentResults payload)) ∧
        ∀ pp ee, ((pp, ee) ∈ payload.results ↔
          ∃ v, ee = Except.ok v ∧
            ((pp, v) ∈ specGroup ext (okEntries mc.results) k1 ∨
             (pp, v) ∈ specGroup ext (okEntries mc.results) k2))) := by
  obtain ⟨votes, hloop, hvS, hvG, hvK⟩ :=
    majority_votes_facts ext mc hsorted hall heqk
  obtain ⟨hkey_mem, hvshape⟩ :=
    votes_key_facts ext (okEntries mc.results) hvG hvK
  refine ⟨?_, ?_, ?_⟩
  · rintro ⟨k0, hk0mem, hk0max⟩
    have hk0v : (k0, specGroup ext (okEntries mc.results) k0) ∈ votes :=
      (hkey_mem k0).1 hk0mem
    have hg0ne : specGroup ext (okEntries mc.results) k0 ≠ [] := (hvG _ hk0v).2
    cases htal : sortTally votes with
    | nil =>
      exfalso
      have hperm := sortTally_perm votes
      rw [htal] at hperm
      have hvnil : votes = [] := hperm.symm.eq_nil
      rw [hvnil] at hk0v
      simp at hk0v
    | cons a tl =>
      cases tl with
      | nil =>
        have hveq : votes = [a] := by
          have hperm := sortTally_perm votes
          rw [htal] at hperm
          exact (List.singleton_perm.1 hperm).symm
        have ha_eq : a = (k0, specGroup ext (okEntries mc.results) k0) := by
          rw [hveq] at hk0v
          exact (List.mem_singleton.1 hk0v).symm
        obtain ⟨last, hlast⟩ : ∃ last, a.2.getLast? = some last := by
          rw [ha_eq]
          exact ⟨_, List.getLast?_eq_getLast _ hg0ne⟩
        refine ⟨last.2, last.1, k0,
          reduce_majority_eval_single ext mc hall hloop htal hlast,
          hk0mem, hk0max, ?_⟩
        have hin : last ∈ a.2 := by
          obtain ⟨ys, hys⟩ := List.getLast?_eq_some_iff.1 hlast
          rw [hys]
          exact List.mem_append_right _ (List.mem_singleton.2 rfl)
        rw [ha_eq] at hin
        exact hin
      | cons b tl2 =>
        obtain ⟨first, second, hfirst, hsecond, hfmem, hsmem, hsnef, hmax, hrunner⟩ :=
          tally_top_facts hvS htal
        have hfshape := hvshape _ hfmem
        have hsshape := hvshape _ hsmem
        have hfsnd : first.2 = specGroup ext (okEntries mc.results) first.1 :=
          congrArg Prod.snd hfshape
        have hssnd : second.2 = specGroup ext (okEntries mc.results) second.1 :=
          congrArg Prod.snd hsshape
        have hfk : first.1 = k0 := by
          by_contra hc
          have h1 : first.1 ∈ keysOf ext (okEntries mc.results) := by
            apply (hkey_mem _).2
            rw [← hfshape]
            exact hfmem
          have h2 := hk0max _ h1 hc
          have h3 := hmax _ hk0v
          rw [hfsnd] at h3
          exact absurd (lt_of_le_of_lt h3 h2) (lt_irrefl _)
        have hfirst_eq : first = (k0, specGroup ext (okEntries mc.results) k0) := by
          rw [hfshape, hfk]
        have hskne : second.1 ≠ k0 := by
          intro hc
          apply hsnef
          rw [hsshape, hc, ← hfirst_eq]
        have hskeys : second.1 ∈ keysOf ext (okEntries mc.results) := by
          apply (hkey_mem _).2
          rw [← hsshape]
          exact hsmem
        have hgt : first.2.length > second.2.length := by
          rw [hfsnd, hssnd, hfk]
          exact hk0max _ hskeys hskne
        obtain ⟨last, hlast⟩ : ∃ last, first.2.getLast? = some last := by
          rw [hfsnd, hfk]
          exact ⟨_, List.getLast?_eq_getLast _ hg0ne⟩
        refine ⟨last.2, last.1, k0,
          reduce_majority_eval_winner ext mc hall hloop htal hfirst hsecond hgt hlast,
          hk0mem, hk0max, ?_⟩
        have hin : last ∈ first.2 := by
          obtain ⟨ys, hys⟩ := List.getLast?_eq_some_iff.1 hlast
          rw [hys]
          exact List.mem_append_right _ (List.mem_singleton.2 rfl)
        rw [hfsnd, hfk] at hin
        exact hin
  · intro v hres
    cases htal : sortTally votes with
    | nil =>
      exfalso
      have hmne : okEntries mc.results ≠ [] := by
        have hlen := okEntries_length_of_all_ok hall
        intro hc
        rw [hc] at hlen
        exact hne (List.length_eq_zero.1 hlen.symm)
      obtain ⟨pr0, hpr0⟩ := List.exists_mem_of_ne_nil _ hmne
      obtain ⟨g0, hg0⟩ := hvK pr0 hpr0
      have hperm := sortTally_perm votes
      rw [htal] at hperm
      have hvnil : votes = [] := hperm.symm.eq_nil
      rw [hvnil] at hg0
      simp at hg0
    | cons a tl =>
      cases tl with
      | nil =>
        have hveq : votes = [a] := by
          have hperm := sortTally_perm votes
          rw [htal] at hperm
          exact (List.singleton_perm.1 hperm).symm
        have ha_v : a ∈ votes := by
          rw [hveq]
          exact List.mem_cons_self _ _
        have hane : a.2 ≠ [] := (hvG a ha_v).2
        have hlast := List.getLast?_eq_getLast a.2 hane
        have hred := reduce_majority_eval_single ext mc hall hloop htal hlast
        rw [hred] at hres
        have hveq2 : (a.2.getLast hane).2 = v := by
          injection hres with hres
          injection hres with hres
        have hashape := hvshape a ha_v
        have hasnd : a.2 = specGroup ext (okEntries mc.results) a.1 :=
          congrArg Prod.snd hashape
        refine ⟨a.1, (a.2.getLast hane).1, ?_, ?_, ?_⟩
        · apply (hkey_mem _).2
          rw [← hashape]
          exact ha_v
        · intro k1 hk1 hk1ne
          exfalso
          have hv1 := (hkey_mem k1).1 hk1
          rw [hveq] at hv1
          have he := List.mem_singleton.1 hv1
          exact hk1ne (congrArg Prod.fst he)
        · rw [← hveq2, ← hasnd]
          exact List.getLast_mem hane
      | cons b tl2 =>
        obtain ⟨first, second, hfirst, hsecond, hfmem, hsmem, hsnef, hmax, hrunner⟩ :=
          tally_top_facts hvS htal
        have hfshape := hvshape _ hfmem
        have hfsnd : first.2 = specGroup ext (okEntries mc.results) first.1 :=
          congrArg Prod.snd hfshape
        have hfne : first.2 ≠ [] := (hvG _ hfmem).2
        by_cases hgt : first.2.length > second.2.length
        · have hlast := List.getLast?_eq_getLast first.2 hfne
          have hred := reduce_majority_eval_winner ext mc hall hloop htal
            hfirst hsecond hgt hlast
          rw [hred] at hres
          have hveq2 : (first.2.getLast hfne).2 = v := by
            injection hres with hres
            injection hres with hres
          refine ⟨first.1, (first.2.getLast hfne).1, ?_, ?_, ?_⟩
          · apply (hkey_mem _).2
            rw [← hfshape]
            exact hfmem
          · intro k1 hk1 hk1ne
            have hv1 := (hkey_mem k1).1 hk1
            have hne_first : (k1, specGroup ext (okEntries mc.results) k1) ≠ first := by
              intro hc
              exact hk1ne (congrArg Prod.fst hc)
            have hle := hrunner _ hv1 hne_first
            have h5 : (specGroup ext (okEntries mc.results) k1).length <
                first.2.length := lt_of_le_of_lt hle hgt
            rw [hfsnd] at h5
            exact h5
          · rw [← hveq2, ← hfsnd]
            exact List.getLast_mem hfne
        · have hargne : ((first.2 ++ second.2).map
              (fun pr => (pr.1, (Except.ok pr.2 : Except RpcError T)))) ≠ [] := by
            simp only [ne_eq, List.map_eq_nil_iff, List.append_eq_nil]
            intro hc
            exact hfne hc.1
          obtain ⟨hfrom, -⟩ := from_non_empty_iter_of_ne_nil hargne
          have hred := reduce_majority_eval_tie ext mc hall hloop htal
            hfirst hsecond hgt hfrom
          rw [hred] at hres
          simp at hres
  · intro k1 k2 hk1 hk2 hk12 hlen12 hmax12
    have hv1 := (hkey_mem k1).1 hk1
    have hv2 := (hkey_mem k2).1 hk2
    cases htal : sortTally votes with
    | nil =>
      exfalso
      have hperm := sortTally_perm votes
      rw [htal] at hperm
      have hvnil : votes = [] := hperm.symm.eq_nil
      rw [hvnil] at hv1
      simp at hv1
    | cons a tl =>
      cases tl with
      | nil =>
        exfalso
        have hveq : votes = [a] := by
          have hperm := sortTally_perm votes
          rw [htal] at hperm
          exact (List.singleton_perm.1 hperm).symm
        rw [hveq] at hv1 hv2
        have e1 := List.mem_singleton.1 hv1
        have e2 := List.mem_singleton.1 hv2
        exact hk12 ((congrArg Prod.fst e1).trans (congrArg Prod.fst e2).symm)
      | cons b tl2 =>
        obtain ⟨first, second, hfirst, hsecond, hfmem, hsmem, hsnef, hmax, hrunner⟩ :=
          tally_top_facts hvS htal
        have hfshape := hvshape _ hfmem
        have hsshape := hvshape _ hsmem
        have hfsnd : first.2 = specGroup ext (okEntries mc.results) first.1 :=
          congrArg Prod.snd hfshape
        have hssnd : second.2 = specGroup ext (okEntries mc.results) second.1 :=
          congrArg Prod.snd hsshape
        have hfkeys : first.1 ∈ keysOf ext (okEntries mc.results) := by
          apply (hkey_mem _).2
          rw [← hfshape]
          exact hfmem
        have hskeys : second.1 ∈ keysOf ext (okEntries mc.results) := by
          apply (hkey_mem _).2
          rw [← hsshape]
          exact hsmem
        have hfk12 : first.1 = k1 ∨ first.1 = k2 := by
          by_contra hc
          push_neg at hc
          have hlt := hmax12 _ hfkeys hc.1 hc.2
          have hle := hmax _ hv1
          rw [hfsnd] at hle
          exact absurd (lt_of_le_of_lt hle hlt) (lt_irrefl _)
        have hsk_ne_fk : second.1 ≠ first.1 := by
          intro hc
          apply hsnef
          rw [hsshape, hc, ← hfshape]
        have hs_ge : (specGroup ext (okEntries mc.results) k1).length ≤
            second.2.length := by
          rcases hfk12 with hf | hf
          · have hne_f : (k2, specGroup ext (okEntries mc.results) k2) ≠ first := by
              intro hc
              exact hk12 (((congrArg Prod.fst hc).trans hf).symm)
            have hle := hrunner _ hv2 hne_f
            rw [hlen12]
            exact hle
          · have hne_f : (k1, specGroup ext (okEntries mc.results) k1) ≠ first := by
              intro hc
              exact hk12 ((congrArg Prod.fst hc).trans hf)
            exact hrunner _ hv1 hne_f
        have hsk12 : second.1 = k1 ∨ second.1 = k2 := by
          by_contra hc
          push_neg at hc
          have hlt := hmax12 _ hskeys hc.1 hc.2
          have hs_ge2 := hs_ge
          rw [hssnd] at hs_ge2
          exact absurd (lt_of_le_of_lt hs_ge2 hlt) (lt_irrefl _)
        have hpair : (first.1 = k1 ∧ second.1 = k2) ∨
            (first.1 = k2 ∧ second.1 = k1) := by
          rcases hfk12 with hf | hf <;> rcases hsk12 with hs | hs
          · exact absurd (hs.trans hf.symm) hsk_ne_fk
          · exact Or.inl ⟨hf, hs⟩
          · exact Or.inr ⟨hf, hs⟩
          · exact absurd (hs.trans hf.symm) hsk_ne_fk
        have hng : ¬(first.2.length > second.2.length) := by
          apply not_lt.2
          have hf_len : first.2.length =
              (specGroup ext (okEntries mc.results) k1).length := by
            rcases hpair with ⟨hf, -⟩ | ⟨hf, -⟩
            · rw [hfsnd, hf]
            · rw [hfsnd, hf]
              exact hlen12.symm
          rw [hf_len]
          exact hs_ge
        have hfne2 : first.2 ≠ [] := (hvG _ hfmem).2
        have hargne : ((first.2 ++ second.2).map
            (fun pr => (pr.1, (Except.ok pr.2 : Except RpcError T)))) ≠ [] := by
          simp only [ne_eq, List.map_eq_nil_iff, List.append_eq_nil]
          intro hc
          exact hfne2 hc.1
        obtain ⟨hfrom, -⟩ := from_non_empty_iter_of_ne_nil hargne
        have hred := reduce_majority_eval_tie ext mc hall hloop htal
          hfirst hsecond hng hfrom
        have hmsorted0 : SortedKeys (okEntries mc.results) :=
          sortedKeys_okEntries hsorted
        have hfsorted : SortedKeys (first.2.map
            (fun pr => (pr.1, (Except.ok pr.2 : Except RpcError T)))) := by
          rw [SortedKeys, List.pairwise_map]
          have h0 : SortedKeys first.2 := by
            rw [hfsnd]
            exact sortedKeys_specGroup hmsorted0 ext first.1
          exact h0
        have hsnodup : ((second.2.map
            (fun pr => (pr.1, (Except.ok pr.2 : Except RpcError T)))).map
            Prod.fst).Nodup := by
          have h2 : SortedKeys second.2 := by
            rw [hssnd]
            exact sortedKeys_specGroup hmsorted0 ext second.1
          show ((second.2.map _).map Prod.fst).Pairwise (· ≠ ·)
          rw [List.pairwise_map, List.pairwise_map]
          exact List.Pairwise.imp (fun h => ne_of_lt h) h2
        have hdisj : ∀ e ∈ second.2.map
            (fun pr => (pr.1, (Except.ok pr.2 : Except RpcError T))),
            e.1 ∉ (first.2.map
              (fun pr => (pr.1, (Except.ok pr.2 : Except RpcError T)))).map
              Prod.fst := by
          intro e he hc
          rw [List.mem_map] at he
          obtain ⟨x, hx, hxe⟩ := he
          rw [List.mem_map] at hc
          obtain ⟨y, hy, hye⟩ := hc
          rw [List.mem_map] at hy
          obtain ⟨z, hz, hzy⟩ := hy
          have hzx : z.1 = x.1 := by
            have h1 : y.1 = z.1 := (congrArg Prod.fst hzy).symm
            have h2 : e.1 = x.1 := (congrArg Prod.fst hxe).symm
            exact (h1.symm.trans hye).trans h2
          have hz2 : (z.1, z.2) ∈ specGroup ext (okEntries mc.results) first.1 := by
            rw [← hfsnd]
            exact hz
          have hx2 : (x.1, x.2) ∈ specGroup ext (okEntries mc.results) second.1 := by
            rw [← hssnd]
            exact hx
          rw [specGroup, List.mem_filter] at hz2 hx2
          have hvals : z.2 = x.2 := by
            apply sortedKeys_assoc_unique hmsorted0 hz2.1
            rw [hzx]
            exact hx2.1
          have hk_z : ext z.2 = first.1 := by simpa using hz2.2
          have hk_x : ext x.2 = second.1 := by simpa using hx2.2
          apply hsk_ne_fk
          rw [← hk_x, ← hk_z, hvals]
        have hmem_pay : ∀ x : P × Except RpcError T,
            x ∈ btreeFromIter ((first.2 ++ second.2).map
              (fun pr => (pr.1, (Except.ok pr.2 : Except RpcError T)))) ↔
            x ∈ first.2.map
              (fun pr => (pr.1, (Except.ok pr.2 : Except RpcError T))) ∨
            x ∈ second.2.map
              (fun pr => (pr.1, (Except.ok pr.2 : Except RpcError T))) := by
          intro x
          rw [List.map_append]
          exact mem_btreeFromIter_append hfsorted hsnodup hdisj
        refine ⟨⟨btreeFromIter ((first.2 ++ second.2).map
          (fun pr => (pr.1, Except.ok pr.2)))⟩, hred, ?_⟩
        intro pp ee
        constructor
        · intro h
          rcases (hmem_pay (pp, ee)).1 h with h1 | h1
          · rw [List.mem_map] at h1
            obtain ⟨x, hx, hxe⟩ := h1
            refine ⟨x.2, (congrArg Prod.snd hxe).symm, ?_⟩
            have hpp : x.1 = pp := congrArg Prod.fst hxe
            have hx2 : (x.1, x.2) ∈ first.2 := hx
            rw [hpp, hfsnd] at hx2
            rcases hpair with ⟨hf, -⟩ | ⟨hf, -⟩
            · left
              rw [← hf]
              exact hx2
            · right
              rw [← hf]
              exact hx2
          · rw [List.mem_map] at h1
            obtain ⟨x, hx, hxe⟩ := h1
            refine ⟨x.2, (congrArg Prod.snd hxe).symm, ?_⟩
            have hpp : x.1 = pp := congrArg Prod.fst hxe
            have hx2 : (x.1, x.2) ∈ second.2 := hx
            rw [hpp, hssnd] at hx2
            rcases hpair with ⟨-, hs⟩ | ⟨-, hs⟩
            · right
              rw [← hs]
              exact hx2
            · left
              rw [← hs]
              exact hx2
        · rintro ⟨v, hee, hv⟩
          apply (hmem_pay (pp, ee)).2
          have hok : (pp, ee) =
              ((fun pr : P × T => (pr.1, (Except.ok pr.2 : Except RpcError T)))
                (pp, v)) := by
            rw [hee]
          rcases hpair with ⟨hf, hs⟩ | ⟨hf, hs⟩
          · rcases hv with hv | hv
            · left
              rw [List.mem_map]
              refine ⟨(pp, v), ?_, hok.symm⟩
              rw [hfsnd, hf]
              exact hv
            · right
              rw [List.mem_map]
              refine ⟨(pp, v), ?_, hok.symm⟩
              rw [hssnd, hs]
              exact hv
          · rcases hv with hv | hv
            · right
              rw [List.mem_map]
              refine ⟨(pp, v), ?_, hok.symm⟩
              rw [hssnd, hs]
              exact hv
            · left
              rw [List.mem_map]
              refine ⟨(pp, v), ?_, hok.symm⟩
              rw [hfsnd, hf]
              exact hv

/-- Witness for C4 at the 2-vs-1 ballot
`{A : (100, [1]), B : (100, [1]), C : (101, [2])}` keyed by the first
component. -/
theorem C4_witness :
    ∃ v p k0, reduce_with_strict_majority_by_key Prod.fst
        (⟨[(0, Except.ok ((100 : Nat), [1])), (1, Except.ok (100, [1])),
           (2, Except.ok (101, [2]))]⟩ :
          MultiCallResults Nat (Nat × List Nat)) = some (Except.ok v) ∧
      k0 ∈ keysOf Prod.fst (okEntries
        ([(0, Except.ok ((100 : Nat), [1])), (1, Except.ok (100, [1])),
          (2, Except.ok (101, [2]))] :
          List (Nat × Except RpcError (Nat × List Nat)))) ∧
      (∀ k1 ∈ keysOf Prod.fst (okEntries
          ([(0, Except.ok ((100 : Nat), [1])), (1, Except.ok (100, [1])),
            (2, Except.ok (101, [2]))] :
            List (Nat × Except RpcError (Nat × List Nat)))), k1 ≠ k0 →
        (specGroup Prod.fst (okEntries
          ([(0, Except.ok ((100 : Nat), [1])), (1, Except.ok (100, [1])),
            (2, Except.ok (101, [2]))] :
            List (Nat × Except RpcError (Nat × List Nat)))) k1).length <
          (specGroup Prod.fst (okEntries
            ([(0, Except.ok ((100 : Nat), [1])), (1, Except.ok (100, [1])),
              (2, Except.ok (101, [2]))] :
              List (Nat × Except RpcError (Nat × List Nat)))) k0).length) ∧
      (p, v) ∈ specGroup Prod.fst (okEntries
        ([(0, Except.ok ((100 : Nat), [1])), (1, Except.ok (100, [1])),
          (2, Except.ok (101, [2]))] :
          List (Nat × Except RpcError (Nat × List Nat)))) k0 :=
  (C4_strict_majority Prod.fst
      (⟨[(0, Except.ok ((100 : Nat), [1])), (1, Except.ok (100, [1])),
         (2, Except.ok (101, [2]))]⟩ :
        MultiCallResults Nat (Nat × List Nat))
      (by decide) (by decide)
      (by
        intro pr hpr
        simp only [List.mem_cons, List.not_mem_nil, or_false] at hpr
        rcases hpr with rfl | rfl | rfl <;> exact ⟨_, rfl⟩)
      (by
        intro p1 v1 p2 v2 h1 h2
        simp only [List.mem_cons, List.not_mem_nil, or_false, Prod.mk.injEq,
          Except.ok.injEq] at h1 h2
        rcases h1 with ⟨-, h1⟩ | ⟨-, h1⟩ | ⟨-, h1⟩ <;>
          rcases h2 with ⟨-, h2⟩ | ⟨-, h2⟩ | ⟨-, h2⟩ <;>
          subst h1 <;> subst h2 <;> decide)).1
    ⟨100, by decide, by decide⟩

/-- C5 counterexample: on the all-ok ballot
`{A : (100, [1]), B : (100, [2]), C : (100, [1])}`, whose three entries all
share the projection key `100`, the payload of the `InconsistentResults`
returned by `reduce_with_strict_majority_by_key` is `{A, B}` only: the entry
of `C`, which belongs to that key's group, is not contained in it. -/
theorem C5_counterexample :
    reduce_with_strict_majority_by_key Prod.fst
        (⟨[(0, Except.ok ((100 : Nat), [1])), (1, Except.ok (100, [2])),
           (2, Except.ok (100, [1]))]⟩ :
          MultiCallResults Nat (Nat × List Nat)) =
      some (Except.error (MultiCallError.InconsistentResults
        ⟨[(0, Except.ok (100, [1])), (1, Except.ok (100, [2]))]⟩)) ∧
    ((2, Except.ok ((100 : Nat), [1])) ∈
        ([(0, Except.ok (100, [1])), (1, Except.ok (100, [2])),
          (2, Except.ok (100, [1]))] :
          List (Nat × Except RpcError (Nat × List Nat))) ∧
      (2, Except.ok ((100 : Nat), [1])) ∉
        ([(0, Except.ok (100, [1])), (1, Except.ok (100, [2]))] :
          List (Nat × Except RpcError (Nat × List Nat)))) := by
  decide

/-- C5 amended: on a non-empty all-ok ballot, if two ok values share a
projection key but differ structurally, `reduce_with_strict_majority_by_key`
returns `InconsistentResults` whose non-empty payload consists of ok-wrapped
input entries that all share one projection key and among which two values
differ — a subset of that key's group that may omit entries occurring after
the first detected conflict. -/
theorem C5_same_key_conflict {P K T : Type} [LinearOrder P] [LinearOrder K]
    [DecidableEq T] (ext : T → K) (mc : MultiCallResults P T)
    (hsorted : SortedKeys mc.results)
    (hall : ∀ pr ∈ mc.results, ∃ v, pr.2 = Except.ok v)
    (hconf : ∃ p1 v1 p2 v2, (p1, Except.ok v1) ∈ mc.results ∧
      (p2, Except.ok v2) ∈ mc.results ∧ ext v1 = ext v2 ∧ v1 ≠ v2) :
    ∃ payload : MultiCallResults P T, ∃ k : K,
      reduce_with_strict_majority_by_key ext mc =
        some (Except.error (MultiCallError.InconsistentResults payload)) ∧
      payload.results ≠ [] ∧
      (∀ pp ee, (pp, ee) ∈ payload.results →
        ∃ v, ee = Except.ok v ∧ (pp, Except.ok v) ∈ mc.results ∧ ext v = k) ∧
      (∃ p1 v1 p2 v2, (p1, Except.ok v1) ∈ payload.results ∧
        (p2, Except.ok v2) ∈ payload.results ∧ v1 ≠ v2) := by
  have hmsorted : SortedKeys (([] : List (P × T)) ++ okEntries mc.results) := by
    simpa using sortedKeys_okEntries hsorted
  obtain ⟨r, hloop, hok, herr⟩ := group_loop_main ext (okEntries mc.results) [] []
    hmsorted List.Pairwise.nil (by simp) (by simp)
  cases r with
  | ok votes =>
    exfalso
    obtain ⟨-, hvG, hvK⟩ := hok votes rfl
    simp only [List.nil_append] at hvG hvK
    obtain ⟨p1, v1, p2, v2, h1, h2, hkeq, hvne⟩ := hconf
    have hm1 : (p1, v1) ∈ okEntries mc.results := mem_okEntries.2 h1
    have hm2 : (p2, v2) ∈ okEntries mc.results := mem_okEntries.2 h2
    obtain ⟨g, hg⟩ := hvK (p1, v1) hm1
    obtain ⟨hgspec, -, hgeq⟩ := hvG _ hg
    have hgspec2 : g = specGroup ext (okEntries mc.results) (ext v1) := hgspec
    have hin1 : (p1, v1) ∈ g := by
      rw [hgspec2, specGroup, List.mem_filter]
      exact ⟨hm1, by simp⟩
    have hin2 : (p2, v2) ∈ g := by
      rw [hgspec2, specGroup, List.mem_filter]
      refine ⟨hm2, ?_⟩
      simp only [decide_eq_true_eq]
      exact hkeq.symm
    exact hvne (hgeq (p1, v1) hin1 (p2, v2) hin2)
  | error payload =>
    obtain ⟨hpne, k, hprops, p1, v1, p2, v2, h1, h2, hvne⟩ := herr payload rfl
    refine ⟨payload, k, reduce_majority_eval_error ext mc hall hloop, hpne, ?_,
      p1, v1, p2, v2, h1, h2, hvne⟩
    intro pp ee hee
    obtain ⟨v, hv1, hv2, hv3⟩ := hprops pp ee hee
    rw [List.nil_append] at hv2
    exact ⟨v, hv1, mem_okEntries.1 hv2, hv3⟩

/-- Witness for the amended C5 at the ballot
`{A : (100, [1]), B : (100, [2])}`. -/
theorem C5_witness :
    ∃ payload : MultiCallResults Nat (Nat × List Nat), ∃ k : Nat,
      reduce_with_strict_majority_by_key Prod.fst
          (⟨[(0, Except.ok (100, [1])), (1, Except.ok (100, [2]))]⟩ :
            MultiCallResults Nat (Nat × List Nat)) =
        some (Except.error (MultiCallError.InconsistentResults payload)) ∧
      payload.results ≠ [] ∧
      (∀ pp ee, (pp, ee) ∈ payload.results →
        ∃ v, ee = Except.ok v ∧
          (pp, Except.ok v) ∈
            ([(0, Except.ok (100, [1])), (1, Except.ok (100, [2]))] :
              List (Nat × Except RpcError (Nat × List Nat))) ∧ v.1 = k) ∧
      (∃ p1 v1 p2 v2, (p1, Except.ok v1) ∈ payload.results ∧
        (p2, Except.ok v2) ∈ payload.results ∧ v1 ≠ v2) :=
  C5_same_key_conflict Prod.fst
    (⟨[(0, Except.ok (100, [1])), (1, Except.ok (100, [2]))]⟩ :
      MultiCallResults Nat (Nat × List Nat))
    (by decide)
    (by
      intro pr hpr
      simp only [List.mem_cons, List.not_mem_nil, or_false] at hpr
      rcases hpr with rfl | rfl <;> exact ⟨_, rfl⟩)
    ⟨0, (100, [1]), 1, (100, [2]), by decide, by decide, rfl, by decide⟩

/-- C7: `MultiCallResults` built by `from_non_empty_iter` are non-empty
(construction from an empty iterator is the modelled panic), and every
`InconsistentResults` payload produced by `all_ok`, `reduce_with_equality`
or `reduce_with_strict_majority_by_key` on a non-empty input is non-empty. -/
theorem C7_non_emptiness {P K T : Type} [LinearOrder P] [LinearOrder K]
    [DecidableEq T] (ext : T → K) (mc : MultiCallResults P T)
    (l : List (P × Except RpcError T))
    (hsorted : SortedKeys mc.results) (hne : mc.results ≠ []) :
    (from_non_empty_iter ([] : List (P × Except RpcError T)) = none) ∧
    (l ≠ [] → ∃ m2, from_non_empty_iter l = some m2 ∧ m2.results ≠ []) ∧
    (∀ r0, all_ok mc = some (Except.error (MultiCallError.InconsistentResults r0)) →
      r0.results ≠ []) ∧
    (∀ r0, reduce_with_equality mc =
        some (Except.error (MultiCallError.InconsistentResults r0)) →
      r0.results ≠ []) ∧
    (∀ r0, reduce_with_strict_majority_by_key ext mc =
        some (Except.error (MultiCallError.InconsistentResults r0)) →
      r0.results ≠ []) := by
  refine ⟨from_non_empty_iter_nil, ?_, ?_, ?_,
    (reduce_majority_shape ext mc hsorted hne).2⟩
  · intro hl
    obtain ⟨heq, hne2⟩ := from_non_empty_iter_of_ne_nil hl
    exact ⟨⟨btreeFromIter l⟩, heq, hne2⟩
  · intro r0 h0
    have h1 := all_ok_inconsistent_eq_self mc h0
    rw [h1]
    exact hne
  · intro r0 h0
    exact reduce_with_equality_payload_ne_nil mc hne h0

/-- Witness for C7 at a concrete two-provider ballot and iterator. -/
theorem C7_witness :
    (from_non_empty_iter ([] : List (Nat × Except RpcError Nat)) = none) ∧
    (∃ m2, from_non_empty_iter
        ([(0, Except.ok 5), (1, Except.ok 6)] : List (Nat × Except RpcError Nat)) =
      some m2 ∧ m2.results ≠ []) :=
  have h := C7_non_emptiness (fun v : Nat => v)
    (⟨[(0, Except.ok 5), (1, Except.ok 6)]⟩ : MultiCallResults Nat Nat)
    [(0, Except.ok 5), (1, Except.ok 6)] (by decide) (by decide)
  ⟨h.1, h.2.1 (by decide)⟩

/-- C10: on a non-empty well-formed input every reducer is total: the
modelled panics are unreachable, so each reducer returns `some` outcome (a
value or a `MultiCallError`). -/
theorem C10_reducers_total {P K T : Type} [LinearOrder P] [LinearOrder K]
    [DecidableEq T] (ext : T → K) (mc : MultiCallResults P T)
    (hsorted : SortedKeys mc.results) (hne : mc.results ≠ []) :
    all_ok mc ≠ none ∧
    reduce_with_equality mc ≠ none ∧
    reduce_with_strict_majority_by_key ext mc ≠ none :=
  ⟨all_ok_ne_none mc, reduce_with_equality_ne_none mc hne,
    (reduce_majority_shape ext mc hsorted hne).1⟩

/-- Witness for C10 at a concrete mixed ballot. -/
theorem C10_witness :
    all_ok (⟨[(0, Except.ok 1), (1, Except.error (RpcError.Provider 0))]⟩ :
        MultiCallResults Nat Nat) ≠ none ∧
    reduce_with_equality
        (⟨[(0, Except.ok 1), (1, Except.error (RpcError.Provider 0))]⟩ :
          MultiCallResults Nat Nat) ≠ none ∧
    reduce_with_strict_majority_by_key (fun v : Nat => v)
        (⟨[(0, Except.ok 1), (1, Except.error (RpcError.Provider 0))]⟩ :
          MultiCallResults Nat Nat) ≠ none :=
  C10_reducers_total (fun v : Nat => v)
    (⟨[(0, Except.ok 1), (1, Except.error (RpcError.Provider 0))]⟩ :
      MultiCallResults Nat Nat) (by decide) (by decide)

/-- Witness for C9: the default mainnet request yields the three-provider
client. -/
theorem C9_witness :
    EthRpcClient.new (RpcServices.EthMainnet none) none =
      Except.ok ⟨EthereumNetwork.MAINNET,
        [RpcService.EthMainnet EthMainnetService.Ankr,
         RpcService.EthMainnet EthMainnetService.Cloudflare,
         RpcService.EthMainnet EthMainnetService.PublicNode], {}⟩ :=
  (C9_new_characterization (RpcServices.EthMainnet none) none).2 (by decide)

end EvmRpc
